import Mathlib

/-!
Verification development for a repository of fixed-step scalar IVP solvers
(`src/euler.py`) and their comparison/timing harnesses (`src/analysis.py`).

The Python code is shallowly embedded over `ℚ`: the derivative function
`f : ℚ → ℚ → ℚ` is an arbitrary pure function, Python's `round` (banker's
rounding, round-half-to-even) is `pyRound`, `numpy.linspace` is `linspace`,
trajectories are lists, `NaN` cells of the comparison table are `none`,
and every Python statement that can raise (a failed `assert`, a
`ZeroDivisionError` from `(t0 - a)/h` with `h = 0`, an out-of-range list
item assignment, a `range` with zero step, a mismatched-length column
assignment, a negative-count `linspace`) makes the embedded function
return `none`.
-/

/-- Python's built-in `round` on a rational: nearest integer, ties to even. -/
def pyRound (q : ℚ) : ℤ :=
  if q - ⌊q⌋ < 1/2 then ⌊q⌋
  else if 1/2 < q - ⌊q⌋ then ⌊q⌋ + 1
  else if ⌊q⌋ % 2 = 0 then ⌊q⌋ else ⌊q⌋ + 1

/-- Model of `numpy.linspace(a, b, num)`: `num` evenly spaced samples from
`a` to `b` inclusive. -/
def linspace (a b : ℚ) (num : ℕ) : List ℚ :=
  if num ≤ 1 then (List.range num).map (fun _ => a)
  else (List.range num).map (fun k : ℕ => a + (k : ℚ) * ((b - a) / ((num : ℚ) - 1)))

/-- Model of `numpy.linspace` called with a Python `int` count, which raises
(`none`) when the count is negative. -/
def linspaceZ (a b : ℚ) (num : ℤ) : Option (List ℚ) :=
  if num < 0 then none else some (linspace a b num.toNat)

/-- Model of the fixed-point `while True:` loop shared by `euler_implicit`
and `euler_trapezium` (`euler.py` lines 100-105, 119-124, 152-157, 171-176):
from the current iterate `y` it computes `y__ = g y`, breaks when
`|y__ - y| < thr` or the epoch counter exceeds the cap, else continues from
`y__`.  It returns the pair of the value of `y_` at the break (the value
the source appends to the trajectory) and the number of loop iterations
executed.  The fuel argument is the `epochs` cap: when it reaches `0` the
loop runs one final iteration (`epoch == epochs + 1 > epochs`) whose `y__`
is discarded. -/
def fixIterC (g : ℚ → ℚ) (thr : ℚ) : ℕ → ℚ → ℚ × ℕ
  | 0, y => (y, 1)
  | n+1, y =>
    if |g y - y| < thr then (y, 1)
    else
      let r := fixIterC g thr n (g y)
      (r.1, r.2 + 1)

/-- Value accepted by the fixed-point loop of the implicit solvers. -/
def fixIter (g : ℚ → ℚ) (thr : ℚ) (n : ℕ) (y : ℚ) : ℚ :=
  (fixIterC g thr n y).1

/-- Value of `y__` most recently computed when the fixed-point loop of the
implicit solvers breaks (same control flow as `fixIterC`, but returning the
final `y__` instead of the `y_` that the source actually appends). -/
def fixIterLast (g : ℚ → ℚ) (thr : ℚ) : ℕ → ℚ → ℚ
  | 0, y => g y
  | n+1, y =>
    if |g y - y| < thr then g y
    else fixIterLast g thr n (g y)

/-- Backward pass of the bidirectional stepping protocol (`euler.py`
lines 58-61 and the analogous loops of the other solvers): from `(ti, yi)`,
repeatedly compute `y_ = step ti yi` and move to `(ti - h, y_)`,
accumulating the visited pairs in generation order (decreasing `t`). -/
def backSteps (step : ℚ → ℚ → ℚ) (h : ℚ) : ℕ → ℚ → ℚ → List (ℚ × ℚ)
  | 0, _, _ => []
  | n+1, ti, yi =>
    let y := step ti yi
    (ti - h, y) :: backSteps step h n (ti - h) y

/-- Forward pass of the bidirectional stepping protocol (`euler.py`
lines 71-74 and analogues): from `(ti, yi)`, repeatedly compute
`y_ = step ti yi` and move to `(ti + h, y_)`. -/
def fwdSteps (step : ℚ → ℚ → ℚ) (h : ℚ) : ℕ → ℚ → ℚ → List (ℚ × ℚ)
  | 0, _, _ => []
  | n+1, ti, yi =>
    let y := step ti yi
    (ti + h, y) :: fwdSteps step h n (ti + h) y

/-- Bidirectional stepping protocol shared verbatim by all four solvers:
assert `a <= t0 <= b`, raise on `h = 0` (the `ZeroDivisionError` of
`(t0 - a)/h`), take `round((t0 - a)/h)` backward steps into a temporary
buffer, reverse it, append `(t0, y0)`, then take `round((b - t0)/h)`
forward steps starting fresh from `(t0, y0)`. -/
def bidirSolve (bs fs : ℚ → ℚ → ℚ) (a b t0 y0 h : ℚ) : Option (List (ℚ × ℚ)) :=
  if a ≤ t0 ∧ t0 ≤ b then
    if h = 0 then none
    else
      some ((backSteps bs h (pyRound ((t0 - a) / h)).toNat t0 y0).reverse ++
        (t0, y0) :: fwdSteps fs h (pyRound ((b - t0) / h)).toNat t0 y0)
  else none

namespace EulerPy

/-- `euler_explicit` from `euler.py`: explicit Euler, forward update
`y + h·f(t, y)`, backward update `y - h·f(t, y)`. -/
def euler_explicit (f : ℚ → ℚ → ℚ) (a b t0 y0 h : ℚ) :
    Option (List ℚ × List ℚ) :=
  (bidirSolve (fun ti yi => yi - h * f ti yi) (fun ti yi => yi + h * f ti yi)
      a b t0 y0 h).map fun l => (l.map Prod.fst, l.map Prod.snd)

/-- `euler_implicit` from `euler.py`: backward Euler; each step seeds the
fixed-point loop with the explicit-Euler estimate and iterates
`y__ = yi ± h·f(ti ± h, y_)`.  Source defaults: `threshold = 1e-6`,
`epochs = 100`. -/
def euler_implicit (f : ℚ → ℚ → ℚ) (a b t0 y0 h threshold : ℚ) (epochs : ℕ) :
    Option (List ℚ × List ℚ) :=
  (bidirSolve
      (fun ti yi =>
        fixIter (fun y => yi - h * f (ti - h) y) threshold epochs (yi - h * f ti yi))
      (fun ti yi =>
        fixIter (fun y => yi + h * f (ti + h) y) threshold epochs (yi + h * f ti yi))
      a b t0 y0 h).map fun l => (l.map Prod.fst, l.map Prod.snd)

/-- `euler_trapezium` from `euler.py`: trapezoidal rule; each step seeds the
fixed-point loop with the explicit-Euler estimate and iterates
`y__ = yi ± 0.5·h·(f(ti, yi) + f(ti ± h, y_))`.  Source defaults:
`threshold = 1e-6`, `epochs = 50`. -/
def euler_trapezium (f : ℚ → ℚ → ℚ) (a b t0 y0 h threshold : ℚ) (epochs : ℕ) :
    Option (List ℚ × List ℚ) :=
  (bidirSolve
      (fun ti yi =>
        fixIter (fun y => yi - 1/2 * h * (f ti yi + f (ti - h) y)) threshold epochs
          (yi - h * f ti yi))
      (fun ti yi =>
        fixIter (fun y => yi + 1/2 * h * (f ti yi + f (ti + h) y)) threshold epochs
          (yi + h * f ti yi))
      a b t0 y0 h).map fun l => (l.map Prod.fst, l.map Prod.snd)

/-- `euler_improved` from `euler.py`: Heun's method; one predictor
`y_ = yi ± h·f(ti, yi)` followed by exactly one corrector
`yi ± 0.5·h·(f(ti, yi) + f(ti ± h, y_))`. -/
def euler_improved (f : ℚ → ℚ → ℚ) (a b t0 y0 h : ℚ) :
    Option (List ℚ × List ℚ) :=
  (bidirSolve
      (fun ti yi =>
        let y := yi - h * f ti yi
        yi - 1/2 * h * (f ti yi + f (ti - h) y))
      (fun ti yi =>
        let y := yi + h * f ti yi
        yi + 1/2 * h * (f ti yi + f (ti + h) y))
      a b t0 y0 h).map fun l => (l.map Prod.fst, l.map Prod.snd)

end EulerPy

/-- Shape of the uniform solver contract the harnesses are polymorphic
over: `(f, a, b, t0, y0, h) → (t-list, y-list)`, raising (`none`) on a
precondition violation. -/
def Method : Type :=
  (ℚ → ℚ → ℚ) → ℚ → ℚ → ℚ → ℚ → ℚ → Option (List ℚ × List ℚ)

namespace EulerPy

/-- Python list slice `y[0 : len(y) : s]` for a positive stride `s`, as
used by the `euler.py` harness. -/
def strided (ys : List ℚ) (s : ℕ) : List ℚ :=
  (List.range ((ys.length + s - 1) / s)).map (fun k => ys.getD (k * s) 0)

/-- Column-building loop of the `euler.py` variant of `analyse_step_len`
(line 37): for each step length the trajectory is subsampled with stride
`round(space / h[i])`.  A zero stride raises (`ValueError` from `range`),
a negative stride yields an empty selection, and a selection whose length
differs from the shared axis raises (pandas length check). -/
def buildCols (f : ℚ → ℚ → ℚ) (method : Method) (a b t0 y0 space : ℚ)
    (tlen : ℕ) : List ℚ → Option (List (List ℚ))
  | [] => some []
  | hi :: rest =>
    (method f a b t0 y0 hi).bind fun ty =>
    (let s := pyRound (space / hi)
     if s = 0 then none
     else
       let col := if s < 0 then [] else strided ty.2 s.toNat
       if col.length = tlen then some col else none).bind fun col =>
    (buildCols f method a b t0 y0 space tlen rest).map fun cols => col :: cols

/-- `analyse_step_len` from `euler.py` (lines 15-39): reference resolution
`space = h[0]` (the first supplied step length), shared axis
`linspace(a, b, round((b - a)/space) + 1)`, one strided column per step
length.  An empty `h` falls back to the default `(0.01, 0.005, 0.001)`. -/
def analyse_step_len (f : ℚ → ℚ → ℚ) (method : Method) (a b t0 y0 : ℚ)
    (hs0 : List ℚ) : Option (List ℚ × List (List ℚ)) :=
  let hs := if hs0.isEmpty then [1/100, 1/200, 1/1000] else hs0
  let space := hs.headD 0
  (linspaceZ a b (pyRound ((b - a) / space) + 1)).bind fun ts =>
  (buildCols f method a b t0 y0 space ts.length hs).map fun cols => (ts, cols)

end EulerPy

namespace AnalysisPy

/-- Python list item assignment `l[i] = v`: indices in `[0, len l)` assign
directly, indices in `[-len l, 0)` assign from the end, anything else
raises `IndexError` (`none`). -/
def pySet (l : List (Option ℚ)) (i : ℤ) (v : Option ℚ) :
    Option (List (Option ℚ)) :=
  if 0 ≤ i ∧ i < (l.length : ℤ) then some (l.set i.toNat v)
  else if -(l.length : ℤ) ≤ i ∧ i < 0 then some (l.set (l.length + i).toNat v)
  else none

/-- Placement loop of the `analysis.py` variant of `analyse_step_len`
(lines 39-42): `for j in range(0, len(y)): l[round(j * h[i] / space)] = y[j]`
over a buffer initialised to all-`NaN` (`none`). -/
def fillCol (space hi : ℚ) : List ℚ → ℕ → List (Option ℚ) →
    Option (List (Option ℚ))
  | [], _, l => some l
  | y :: ys, j, l =>
    (pySet l (pyRound ((j : ℚ) * hi / space)) (some y)).bind
      (fillCol space hi ys (j + 1))

/-- Column-building loop of the `analysis.py` variant of
`analyse_step_len` (lines 35-43): for each step length, run the solver and
scatter its `y` values into a fresh all-`NaN` buffer of the axis length. -/
def buildCols (f : ℚ → ℚ → ℚ) (method : Method) (a b t0 y0 space : ℚ)
    (tlen : ℕ) : List ℚ → Option (List (List (Option ℚ)))
  | [] => some []
  | hi :: rest =>
    (method f a b t0 y0 hi).bind fun ty =>
    (fillCol space hi ty.2 0 (List.replicate tlen none)).bind fun col =>
    (buildCols f method a b t0 y0 space tlen rest).map fun cols => col :: cols

/-- `analyse_step_len` from `analysis.py` (lines 15-45): reference
resolution `space = h[-1]` (the last supplied step length), shared axis
`linspace(a, b, round((b - a)/space) + 1)`, and per step length a column
of the axis length whose cell `round(j * h[i] / space)` holds `y[j]`
(remaining cells `NaN`).  An empty `h` falls back to the default
`(0.01, 0.005, 0.001)`. -/
def analyse_step_len (f : ℚ → ℚ → ℚ) (method : Method) (a b t0 y0 : ℚ)
    (hs0 : List ℚ) : Option (List ℚ × List (List (Option ℚ))) :=
  let hs := if hs0.isEmpty then [1/100, 1/200, 1/1000] else hs0
  let space := hs.getLastD 0
  (linspaceZ a b (pyRound ((b - a) / space) + 1)).bind fun ts =>
  (buildCols f method a b t0 y0 space ts.length hs).map fun cols => (ts, cols)

/-- `analyse_time` from `analysis.py` (lines 48-60), with the wall-clock
measurement abstracted away: the model keeps the `assert epochs > 0`
precondition check and the sequential repetition of the solver call
(`epochs` identical invocations of a pure `method`), returning the list of
their results instead of the elapsed-time average. -/
def analyse_time (f : ℚ → ℚ → ℚ) (method : Method) (a b t0 y0 h : ℚ)
    (epochs : ℤ) : Option (List (List ℚ × List ℚ)) :=
  if 0 < epochs then
    (method f a b t0 y0 h).map fun r => List.replicate epochs.toNat r
  else none

end AnalysisPy

/-! ### Basic facts about the embedded primitives -/

/-- Integers round to themselves. -/
lemma pyRound_intCast (z : ℤ) : pyRound (z : ℚ) = z := by
  unfold pyRound
  rw [Int.floor_intCast]
  norm_num

lemma pyRound_natCast (n : ℕ) : pyRound (n : ℚ) = n := by
  have := pyRound_intCast (n : ℤ)
  push_cast at this
  exact this

lemma pyRound_zero : pyRound 0 = 0 := by
  have := pyRound_intCast 0
  norm_num at this
  exact this

lemma pyRound_one : pyRound 1 = 1 := by
  have := pyRound_intCast 1
  norm_num at this
  exact this

/-- Rounding a non-negative rational gives a non-negative integer. -/
lemma pyRound_nonneg {q : ℚ} (hq : 0 ≤ q) : 0 ≤ pyRound q := by
  have hfl : (0 : ℤ) ≤ ⌊q⌋ := Int.le_floor.mpr (by exact_mod_cast hq)
  unfold pyRound
  split_ifs <;> omega

/-- Python's `round` is within `1/2` of its argument. -/
lemma pyRound_sub_le (q : ℚ) : |(pyRound q : ℚ) - q| ≤ 1/2 := by
  have h1 : (⌊q⌋ : ℚ) ≤ q := Int.floor_le q
  have h2 : q < (⌊q⌋ : ℚ) + 1 := Int.lt_floor_add_one q
  unfold pyRound
  split_ifs with hf hg he
  · rw [abs_sub_comm, abs_of_nonneg (by linarith)]
    linarith
  · push_cast
    rw [abs_of_nonneg (by linarith)]
    linarith
  · rw [abs_sub_comm, abs_of_nonneg (by linarith)]
    linarith
  · push_cast
    rw [abs_of_nonneg (by linarith)]
    linarith

lemma linspace_length (a b : ℚ) (num : ℕ) : (linspace a b num).length = num := by
  unfold linspace
  split_ifs <;> rw [List.length_map, List.length_range]

/-- When the span is an exact multiple of the resolution, `linspace`
produces the uniform grid of that resolution. -/
lemma linspace_eq_grid (a b space : ℚ) (n : ℕ) (hab : b - a = n * space) :
    linspace a b (n + 1) =
      (List.range (n + 1)).map (fun m : ℕ => a + (m : ℚ) * space) := by
  unfold linspace
  rcases Nat.eq_zero_or_pos n with h0 | hn
  · subst h0
    norm_num [List.range_succ]
  · rw [if_neg (by omega)]
    apply List.map_congr_left
    intro k _
    have hnq : (n : ℚ) ≠ 0 := Nat.cast_ne_zero.mpr (by omega)
    have hns : ((n : ℚ) + 1) - 1 = (n : ℚ) := by ring
    push_cast
    rw [hns, hab]
    field_simp

/-! ### The stepping passes as iterates of a single-step map -/

/-- Single forward step of the bidirectional protocol as a map on
`(t, y)` pairs. -/
def stepFwd (step : ℚ → ℚ → ℚ) (h : ℚ) (p : ℚ × ℚ) : ℚ × ℚ :=
  (p.1 + h, step p.1 p.2)

/-- Single backward step of the bidirectional protocol as a map on
`(t, y)` pairs. -/
def stepBack (step : ℚ → ℚ → ℚ) (h : ℚ) (p : ℚ × ℚ) : ℚ × ℚ :=
  (p.1 - h, step p.1 p.2)

lemma fwdSteps_eq_map (step : ℚ → ℚ → ℚ) (h : ℚ) :
    ∀ (n : ℕ) (ti yi : ℚ),
      fwdSteps step h n ti yi =
        (List.range n).map (fun k => (stepFwd step h)^[k + 1] (ti, yi)) := by
  intro n
  induction n with
  | zero => intro ti yi; rfl
  | succ n ih =>
    intro ti yi
    rw [List.range_succ_eq_map, List.map_cons, List.map_map]
    show (ti + h, step ti yi) :: fwdSteps step h n (ti + h) (step ti yi) = _
    congr 1
    rw [ih]
    apply List.map_congr_left
    intro k _
    show (stepFwd step h)^[k + 1] (ti + h, step ti yi) = _
    have hp : (ti + h, step ti yi) = stepFwd step h (ti, yi) := rfl
    rw [hp, ← Function.iterate_succ_apply]
    rfl

lemma backSteps_eq_map (step : ℚ → ℚ → ℚ) (h : ℚ) :
    ∀ (n : ℕ) (ti yi : ℚ),
      backSteps step h n ti yi =
        (List.range n).map (fun k => (stepBack step h)^[k + 1] (ti, yi)) := by
  intro n
  induction n with
  | zero => intro ti yi; rfl
  | succ n ih =>
    intro ti yi
    rw [List.range_succ_eq_map, List.map_cons, List.map_map]
    show (ti - h, step ti yi) :: backSteps step h n (ti - h) (step ti yi) = _
    congr 1
    rw [ih]
    apply List.map_congr_left
    intro k _
    show (stepBack step h)^[k + 1] (ti - h, step ti yi) = _
    have hp : (ti - h, step ti yi) = stepBack step h (ti, yi) := rfl
    rw [hp, ← Function.iterate_succ_apply]
    rfl

lemma stepFwd_iter_fst (step : ℚ → ℚ → ℚ) (h : ℚ) (t0 y0 : ℚ) :
    ∀ k : ℕ, ((stepFwd step h)^[k] (t0, y0)).1 = t0 + k * h := by
  intro k
  induction k with
  | zero => simp
  | succ k ih =>
    rw [Function.iterate_succ_apply']
    show ((stepFwd step h)^[k] (t0, y0)).1 + h = _
    rw [ih]
    push_cast
    ring

lemma stepBack_iter_fst (step : ℚ → ℚ → ℚ) (h : ℚ) (t0 y0 : ℚ) :
    ∀ k : ℕ, ((stepBack step h)^[k] (t0, y0)).1 = t0 - k * h := by
  intro k
  induction k with
  | zero => simp
  | succ k ih =>
    rw [Function.iterate_succ_apply']
    show ((stepBack step h)^[k] (t0, y0)).1 - h = _
    rw [ih]
    push_cast
    ring

/-- Sample `k` (0-based, ascending `t`) of the trajectory built by the
bidirectional protocol with `nb` backward steps: positions below `nb` are
backward iterates, position `nb` is `(t0, y0)`, higher positions are
forward iterates. -/
def trajPt (bs fs : ℚ → ℚ → ℚ) (h t0 y0 : ℚ) (nb : ℕ) (k : ℕ) : ℚ × ℚ :=
  if k < nb then (stepBack bs h)^[nb - k] (t0, y0)
  else (stepFwd fs h)^[k - nb] (t0, y0)

lemma reverse_map_range {α : Type} (f : ℕ → α) (n : ℕ) :
    ((List.range n).map f).reverse =
      (List.range n).map (fun i => f (n - 1 - i)) := by
  apply List.ext_getElem?
  intro m
  by_cases hm : m < n
  · have hlen : ((List.range n).map f).length = n := by
      rw [List.length_map, List.length_range]
    have hm' : n - 1 - m < n := by omega
    rw [List.getElem?_reverse (by rw [hlen]; exact hm), hlen,
      List.getElem?_map, List.getElem?_range hm',
      List.getElem?_map, List.getElem?_range hm]
    rfl
  · have h1 : ((List.range n).map f).reverse.length ≤ m := by
      rw [List.length_reverse, List.length_map, List.length_range]
      omega
    have h2 : ((List.range n).map (fun i => f (n - 1 - i))).length ≤ m := by
      rw [List.length_map, List.length_range]
      omega
    rw [List.getElem?_eq_none h1, List.getElem?_eq_none h2]

/-- Normal form of a successful `bidirSolve` call: the trajectory is the
pointwise image of `trajPt` over `nb + 1 + nf` indices. -/
lemma bidirSolve_eq_map (bs fs : ℚ → ℚ → ℚ) (a b t0 y0 h : ℚ) (nb nf : ℕ)
    (hab : a ≤ t0 ∧ t0 ≤ b) (hh : h ≠ 0)
    (hnb : nb = (pyRound ((t0 - a) / h)).toNat)
    (hnf : nf = (pyRound ((b - t0) / h)).toNat) :
    bidirSolve bs fs a b t0 y0 h =
      some ((List.range (nb + 1 + nf)).map (trajPt bs fs h t0 y0 nb)) := by
  unfold bidirSolve
  rw [if_pos hab, if_neg hh, ← hnb, ← hnf]
  congr 1
  rw [backSteps_eq_map, fwdSteps_eq_map, reverse_map_range]
  have hsplit : nb + 1 + nf = nb + (nf + 1) := by omega
  rw [hsplit, List.range_add, List.map_append]
  congr 1
  · apply List.map_congr_left
    intro i hi
    rw [List.mem_range] at hi
    unfold trajPt
    rw [if_pos hi]
    congr 1
    omega
  · rw [List.map_map, List.range_succ_eq_map, List.map_cons, List.map_map]
    show _ = trajPt bs fs h t0 y0 nb (nb + 0) :: _
    congr 1
    · unfold trajPt
      rw [if_neg (by omega)]
      simp
    · apply List.map_congr_left
      intro k _
      show (stepFwd fs h)^[k + 1] (t0, y0) = trajPt bs fs h t0 y0 nb (nb + (k + 1))
      unfold trajPt
      rw [if_neg (by omega)]
      congr 1
      omega

lemma trajPt_fst (bs fs : ℚ → ℚ → ℚ) (h t0 y0 : ℚ) (nb k : ℕ) :
    (trajPt bs fs h t0 y0 nb k).1 = t0 + ((k : ℚ) - (nb : ℚ)) * h := by
  unfold trajPt
  split_ifs with hk
  · rw [stepBack_iter_fst]
    have hc : ((nb - k : ℕ) : ℚ) = (nb : ℚ) - (k : ℚ) := by
      push_cast [Nat.cast_sub (le_of_lt hk)]
      ring
    rw [hc]
    ring
  · rw [stepFwd_iter_fst]
    have hc : ((k - nb : ℕ) : ℚ) = (k : ℚ) - (nb : ℚ) := by
      push_cast [Nat.cast_sub (not_lt.mp hk)]
      ring
    rw [hc]

/-- `getD` of a map over `List.range`. -/
lemma getD_map_range {α : Type} (g : ℕ → α) (d : α) (N k : ℕ) (hk : k < N) :
    ((List.range N).map g).getD k d = g k := by
  rw [List.getD_eq_getElem?_getD, List.getElem?_map, List.getElem?_range hk]
  rfl

lemma trajPt_center (bs fs : ℚ → ℚ → ℚ) (h t0 y0 : ℚ) (nb : ℕ) :
    trajPt bs fs h t0 y0 nb nb = (t0, y0) := by
  unfold trajPt
  rw [if_neg (by omega)]
  simp

lemma trajPt_fwd (bs fs : ℚ → ℚ → ℚ) (h t0 y0 : ℚ) (nb k : ℕ) :
    trajPt bs fs h t0 y0 nb (nb + k) = (stepFwd fs h)^[k] (t0, y0) := by
  unfold trajPt
  rw [if_neg (by omega)]
  congr 1
  omega

/-- Below the centre, each sample is one backward step applied to its right
neighbour. -/
lemma trajPt_back_succ (bs fs : ℚ → ℚ → ℚ) (h t0 y0 : ℚ) (nb p : ℕ)
    (hp : p < nb) :
    trajPt bs fs h t0 y0 nb p = stepBack bs h (trajPt bs fs h t0 y0 nb (p + 1)) := by
  unfold trajPt
  rw [if_pos hp]
  by_cases hp1 : p + 1 < nb
  · rw [if_pos hp1]
    have hsub : nb - p = (nb - (p + 1)) + 1 := by omega
    rw [hsub, Function.iterate_succ_apply']
  · rw [if_neg hp1]
    have hnb : nb = p + 1 := by omega
    have hsub : nb - p = 1 := by omega
    have hz : (p + 1) - nb = 0 := by omega
    rw [hsub, hz]
    rfl

/-! ### The fixed-point loop -/

/-- The fixed-point loop executes at most `epochs + 1` iterations. -/
lemma fixIterC_count_le (g : ℚ → ℚ) (thr : ℚ) :
    ∀ (E : ℕ) (s : ℚ), (fixIterC g thr E s).2 ≤ E + 1 := by
  intro E
  induction E with
  | zero => intro s; exact le_refl 1
  | succ E ih =>
    intro s
    unfold fixIterC
    split_ifs
    · omega
    · have := ih (g s)
      simp only []
      omega

/-- Value accepted by the fixed-point loop: it is the iterate `g^[k] s`
for the first `k` at which the next iterate is within the threshold (or
`k = epochs` when no earlier iteration met it); in particular the accepted
value is the iterate held when the loop breaks, not the final computed
`y__`. -/
lemma fixIter_iterate (g : ℚ → ℚ) (thr : ℚ) :
    ∀ (E : ℕ) (s : ℚ),
      ∃ k, k ≤ E ∧ fixIter g thr E s = g^[k] s ∧
        (∀ j, j < k → ¬ |g (g^[j] s) - g^[j] s| < thr) ∧
        (k < E → |g (g^[k] s) - g^[k] s| < thr) := by
  intro E
  induction E with
  | zero =>
    intro s
    exact ⟨0, le_refl 0, rfl, fun j hj => absurd hj (by omega), fun h => absurd h (by omega)⟩
  | succ E ih =>
    intro s
    by_cases hc : |g s - s| < thr
    · refine ⟨0, Nat.zero_le _, ?_, fun j hj => absurd hj (by omega), fun _ => hc⟩
      unfold fixIter fixIterC
      rw [if_pos hc]
      rfl
    · obtain ⟨k, hk, heq, hjs, hcap⟩ := ih (g s)
      refine ⟨k + 1, by omega, ?_, ?_, ?_⟩
      · unfold fixIter fixIterC
        rw [if_neg hc]
        show (fixIterC g thr E (g s)).1 = g^[k + 1] s
        have e1 : g^[k + 1] s = g^[k] (g s) := Function.iterate_succ_apply g k s
        rw [e1]
        exact heq
      · intro j hj
        cases j with
        | zero => exact hc
        | succ j =>
          have e1 : g^[j + 1] s = g^[j] (g s) := Function.iterate_succ_apply g j s
          rw [e1]
          exact hjs j (by omega)
      · intro hlt
        have e1 : g^[k + 1] s = g^[k] (g s) := Function.iterate_succ_apply g k s
        rw [e1]
        exact hcap (by omega)

/-- A fixed-point loop whose update is constant at its seed returns the
seed, for every threshold and epoch cap. -/
lemma fixIter_const (c thr : ℚ) : ∀ E : ℕ, fixIter (fun _ => c) thr E c = c := by
  intro E
  induction E with
  | zero => rfl
  | succ E ih =>
    unfold fixIter fixIterC
    split_ifs
    · rfl
    · exact ih

/-! ### Constant-derivative trajectories -/

lemma stepFwd_const_iter (d h t0 y0 : ℚ) :
    ∀ k : ℕ, (stepFwd (fun _ yi => yi + d) h)^[k] (t0, y0) =
      (t0 + (k : ℚ) * h, y0 + (k : ℚ) * d) := by
  intro k
  induction k with
  | zero => simp
  | succ k ih =>
    rw [Function.iterate_succ_apply', ih]
    unfold stepFwd
    rw [Prod.mk.injEq]
    push_cast
    exact ⟨by ring, by ring⟩

lemma stepBack_const_iter (d h t0 y0 : ℚ) :
    ∀ k : ℕ, (stepBack (fun _ yi => yi - d) h)^[k] (t0, y0) =
      (t0 - (k : ℚ) * h, y0 - (k : ℚ) * d) := by
  intro k
  induction k with
  | zero => simp
  | succ k ih =>
    rw [Function.iterate_succ_apply', ih]
    unfold stepBack
    rw [Prod.mk.injEq]
    push_cast
    exact ⟨by ring, by ring⟩

lemma trajPt_const (d h t0 y0 : ℚ) (nb k : ℕ) :
    trajPt (fun _ yi => yi - d) (fun _ yi => yi + d) h t0 y0 nb k =
      (t0 + ((k : ℚ) - (nb : ℚ)) * h, y0 + ((k : ℚ) - (nb : ℚ)) * d) := by
  unfold trajPt
  split_ifs with hk
  · rw [stepBack_const_iter]
    have hc : ((nb - k : ℕ) : ℚ) = (nb : ℚ) - (k : ℚ) := by
      push_cast [Nat.cast_sub (le_of_lt hk)]
      ring
    rw [hc, Prod.mk.injEq]
    exact ⟨by ring, by ring⟩
  · rw [stepFwd_const_iter]
    have hc : ((k - nb : ℕ) : ℚ) = (k : ℚ) - (nb : ℚ) := by
      push_cast [Nat.cast_sub (not_lt.mp hk)]
      ring
    rw [hc]

/-- A `bidirSolve` whose backward/forward updates subtract/add the constant
increment `h * c` produces the exact linear trajectory
`y = y0 + c·(t - t0)`. -/
lemma bidir_const_split (a b t0 y0 h c : ℚ) (hab : a ≤ t0 ∧ t0 ≤ b)
    (hh : h ≠ 0) :
    ∃ ts ys,
      (bidirSolve (fun _ yi => yi - h * c) (fun _ yi => yi + h * c)
          a b t0 y0 h).map (fun l => (l.map Prod.fst, l.map Prod.snd)) =
        some (ts, ys) ∧
      ys.length = ts.length ∧
      ∀ k, k < ts.length → ys.getD k 0 = y0 + c * (ts.getD k 0 - t0) := by
  rw [bidirSolve_eq_map _ _ a b t0 y0 h _ _ hab hh rfl rfl]
  set nb := (pyRound ((t0 - a) / h)).toNat with hnb
  set nf := (pyRound ((b - t0) / h)).toNat with hnf
  set N := nb + 1 + nf with hN
  refine ⟨_, _, rfl, ?_, ?_⟩
  · simp [List.length_map, List.length_range]
  · intro k hk
    have hk' : k < N := by
      simpa [List.length_map, List.length_range] using hk
    rw [List.map_map, List.map_map, getD_map_range _ _ _ _ hk',
      getD_map_range _ _ _ _ hk']
    show (trajPt (fun _ yi => yi - h * c) (fun _ yi => yi + h * c)
        h t0 y0 nb k).2 = y0 + c * ((trajPt (fun _ yi => yi - h * c)
        (fun _ yi => yi + h * c) h t0 y0 nb k).1 - t0)
    rw [trajPt_const]
    show y0 + ((k : ℚ) - (nb : ℚ)) * (h * c) =
      y0 + c * (t0 + ((k : ℚ) - (nb : ℚ)) * h - t0)
    ring

/-! ### Forward pass is independent of the backward pass -/

lemma backSteps_mem_fst_lt (step : ℚ → ℚ → ℚ) (h : ℚ) (hh : 0 < h)
    (n : ℕ) (ti yi : ℚ) :
    ∀ p ∈ backSteps step h n ti yi, p.1 < ti := by
  intro p hp
  rw [backSteps_eq_map] at hp
  obtain ⟨k, hk, rfl⟩ := List.mem_map.mp hp
  rw [stepBack_iter_fst]
  have hpos : (0 : ℚ) < ((k : ℚ) + 1) * h := by positivity
  push_cast
  linarith

lemma fwdSteps_mem_fst_ge (step : ℚ → ℚ → ℚ) (h : ℚ) (hh : 0 < h)
    (n : ℕ) (ti yi : ℚ) :
    ∀ p ∈ fwdSteps step h n ti yi, ti ≤ p.1 := by
  intro p hp
  rw [fwdSteps_eq_map] at hp
  obtain ⟨k, hk, rfl⟩ := List.mem_map.mp hp
  rw [stepFwd_iter_fst]
  have hpos : (0 : ℚ) < ((k : ℚ) + 1) * h := by positivity
  push_cast
  linarith

/-- Filtering a bidirectional trajectory to the samples with `t0 ≤ t`
yields exactly the trajectory of the same solver restarted at `a := t0`. -/
lemma bidir_filter (bs fs : ℚ → ℚ → ℚ) (a b t0 y0 h : ℚ)
    (ha : a ≤ t0) (hb : t0 ≤ b) (hh : 0 < h) :
    ∃ l l', bidirSolve bs fs a b t0 y0 h = some l ∧
      bidirSolve bs fs t0 b t0 y0 h = some l' ∧
      l.filter (fun p => decide (t0 ≤ p.1)) = l' := by
  have hh' : h ≠ 0 := ne_of_gt hh
  have e1 : bidirSolve bs fs a b t0 y0 h =
      some ((backSteps bs h (pyRound ((t0 - a) / h)).toNat t0 y0).reverse ++
        (t0, y0) :: fwdSteps fs h (pyRound ((b - t0) / h)).toNat t0 y0) := by
    unfold bidirSolve
    rw [if_pos ⟨ha, hb⟩, if_neg hh']
  have hz : pyRound ((t0 - t0) / h) = 0 := by
    rw [sub_self, zero_div, pyRound_zero]
  have e2 : bidirSolve bs fs t0 b t0 y0 h =
      some ((t0, y0) :: fwdSteps fs h (pyRound ((b - t0) / h)).toNat t0 y0) := by
    unfold bidirSolve
    rw [if_pos ⟨le_refl t0, hb⟩, if_neg hh', hz]
    rfl
  refine ⟨_, _, e1, e2, ?_⟩
  · rw [List.filter_append]
    have h1 : ((backSteps bs h (pyRound ((t0 - a) / h)).toNat t0 y0).reverse).filter
        (fun p => decide (t0 ≤ p.1)) = [] := by
      rw [List.filter_eq_nil]
      intro p hp
      have hp' : p ∈ backSteps bs h (pyRound ((t0 - a) / h)).toNat t0 y0 :=
        List.mem_reverse.mp hp
      have := backSteps_mem_fst_lt bs h hh _ t0 y0 p hp'
      simp only [decide_eq_true_eq]
      linarith
    rw [h1, List.nil_append]
    rw [List.filter_cons_of_pos (by simp)]
    congr 1
    rw [List.filter_eq_self]
    intro p hp
    have := fwdSteps_mem_fst_ge fs h hh _ t0 y0 p hp
    simpa using this

/-! ### Shape of the time axis -/

/-- The `t` component of a bidirectional trajectory is the uniform grid
`t0 + (k - nb)·h`. -/
lemma bidir_fst_formula (bs fs : ℚ → ℚ → ℚ) (h t0 y0 : ℚ) (nb N : ℕ) :
    ((List.range N).map (trajPt bs fs h t0 y0 nb)).map Prod.fst =
      (List.range N).map (fun k : ℕ => t0 + ((k : ℚ) - (nb : ℚ)) * h) := by
  rw [List.map_map]
  apply List.map_congr_left
  intro k _
  exact trajPt_fst bs fs h t0 y0 nb k

lemma ts_grid_pairwise (t0 h : ℚ) (hh : 0 < h) (nb N : ℕ) :
    ((List.range N).map (fun k : ℕ => t0 + ((k : ℚ) - (nb : ℚ)) * h)).Pairwise
      (· < ·) := by
  rw [List.pairwise_map]
  refine (List.pairwise_lt_range N).imp ?_
  intro i j hij
  have hij' : (i : ℚ) < (j : ℚ) := by exact_mod_cast hij
  have := mul_lt_mul_of_pos_right (sub_lt_sub_right hij' (nb : ℚ)) hh
  linarith

/-- The rounded step count times the step length lands within half a step
of the exact span. -/
lemma round_steps_close (x h : ℚ) (hh : 0 < h) (hx : 0 ≤ x) :
    |(((pyRound (x / h)).toNat : ℚ)) * h - x| ≤ h := by
  have hq : 0 ≤ x / h := div_nonneg hx (le_of_lt hh)
  have hcast : (((pyRound (x / h)).toNat : ℚ)) = ((pyRound (x / h) : ℤ) : ℚ) := by
    exact_mod_cast congrArg (fun z : ℤ => (z : ℚ)) (Int.toNat_of_nonneg (pyRound_nonneg hq))
  rw [hcast]
  have hxh : x / h * h = x := div_mul_cancel₀ x (ne_of_gt hh)
  have key : ((pyRound (x / h) : ℤ) : ℚ) * h - x = ((pyRound (x / h) : ℚ) - x / h) * h := by
    rw [sub_mul, hxh]
  rw [key, abs_mul, abs_of_pos hh]
  have hb := pyRound_sub_le (x / h)
  nlinarith

lemma bidir_getD_fst (bs fs : ℚ → ℚ → ℚ) (h t0 y0 : ℚ) (nb N i : ℕ)
    (hi : i < N) :
    (((List.range N).map (trajPt bs fs h t0 y0 nb)).map Prod.fst).getD i 0 =
      (trajPt bs fs h t0 y0 nb i).1 := by
  rw [List.map_map, getD_map_range _ _ _ _ hi]
  rfl

lemma bidir_getD_snd (bs fs : ℚ → ℚ → ℚ) (h t0 y0 : ℚ) (nb N i : ℕ)
    (hi : i < N) :
    (((List.range N).map (trajPt bs fs h t0 y0 nb)).map Prod.snd).getD i 0 =
      (trajPt bs fs h t0 y0 nb i).2 := by
  rw [List.map_map, getD_map_range _ _ _ _ hi]
  rfl

/-! ### Claim theorems -/

/-- C8: for every solver call through the shared bidirectional protocol
(`bidirSolve`, which all four solvers instantiate) with `a ≤ t0 ≤ b` and
`h > 0`, the returned `t`-sequence is strictly increasing, its first
element is within one step length of `a`, and its last element is within
one step length of `b`. -/
theorem C8_t_axis_strictly_increasing_spans (bs fs : ℚ → ℚ → ℚ)
    (a b t0 y0 h : ℚ) (ha : a ≤ t0) (hb : t0 ≤ b) (hh : 0 < h) :
    ∃ l, bidirSolve bs fs a b t0 y0 h = some l ∧ l ≠ [] ∧
      (l.map Prod.fst).Pairwise (· < ·) ∧
      |(l.map Prod.fst).getD 0 0 - a| ≤ h ∧
      |(l.map Prod.fst).getD (l.length - 1) 0 - b| ≤ h := by
  have hh' : h ≠ 0 := ne_of_gt hh
  rw [bidirSolve_eq_map bs fs a b t0 y0 h _ _ ⟨ha, hb⟩ hh' rfl rfl]
  set nb := (pyRound ((t0 - a) / h)).toNat with hnb
  set nf := (pyRound ((b - t0) / h)).toNat with hnf
  set N := nb + 1 + nf with hN
  refine ⟨_, rfl, ?_, ?_, ?_, ?_⟩
  · apply List.ne_nil_of_length_pos
    rw [List.length_map, List.length_range]
    omega
  · rw [bidir_fst_formula]
    exact ts_grid_pairwise t0 h hh nb N
  · rw [bidir_getD_fst _ _ _ _ _ _ _ _ (show 0 < N by omega), trajPt_fst]
    have hx : 0 ≤ t0 - a := sub_nonneg.mpr ha
    have hcl := round_steps_close (t0 - a) h hh hx
    rw [← hnb] at hcl
    have he : t0 + (((0 : ℕ) : ℚ) - (nb : ℚ)) * h - a = -((nb : ℚ) * h - (t0 - a)) := by
      push_cast
      ring
    rw [he, abs_neg]
    exact hcl
  · rw [List.length_map, List.length_range]
    have hidx : N - 1 = nb + nf := by omega
    rw [hidx, bidir_getD_fst _ _ _ _ _ _ _ _ (show nb + nf < N by omega), trajPt_fst]
    have hx : 0 ≤ b - t0 := sub_nonneg.mpr hb
    have hcl := round_steps_close (b - t0) h hh hx
    rw [← hnf] at hcl
    have he : t0 + (((nb + nf : ℕ) : ℚ) - (nb : ℚ)) * h - b = (nf : ℚ) * h - (b - t0) := by
      push_cast
      ring
    rw [he]
    exact hcl

/-- Witness for C8 at a concrete interior-`t0` call. -/
theorem C8_t_axis_strictly_increasing_spans_witness :
    (0 : ℚ) ≤ 1/2 ∧ (1/2 : ℚ) ≤ 1 ∧ (0 : ℚ) < 1/4 ∧
    ∃ l, bidirSolve (fun _ y => y) (fun _ y => y) 0 1 (1/2) 1 (1/4) = some l ∧
      l ≠ [] ∧ (l.map Prod.fst).Pairwise (· < ·) ∧
      |(l.map Prod.fst).getD 0 0 - 0| ≤ 1/4 ∧
      |(l.map Prod.fst).getD (l.length - 1) 0 - 1| ≤ 1/4 :=
  ⟨by norm_num, by norm_num, by norm_num,
    C8_t_axis_strictly_increasing_spans (fun _ y => y) (fun _ y => y) 0 1 (1/2) 1 (1/4)
      (by norm_num) (by norm_num) (by norm_num)⟩

/-- C2: a call of `euler_explicit` with `a ≤ t0 ≤ b`, `h > 0` produces
exactly `round((t0 - a)/h)` backward samples before the initial point and
`round((b - t0)/h)` forward samples after it; sample `nb` is `(t0, y0)`,
each forward sample obeys the forward update from its left neighbour
(starting fresh from `(t0, y0)`), each backward sample obeys the
direction-flipped update from its right neighbour (the buffer is reversed
into ascending order, so generation order is right-to-left), and `t0 = a`
makes the backward pass empty. -/
theorem C2_bidirectional_protocol (f : ℚ → ℚ → ℚ) (a b t0 y0 h : ℚ)
    (nb nf : ℕ) (ha : a ≤ t0) (hb : t0 ≤ b) (hh : 0 < h)
    (hnb : nb = (pyRound ((t0 - a) / h)).toNat)
    (hnf : nf = (pyRound ((b - t0) / h)).toNat) :
    ∃ ts ys, EulerPy.euler_explicit f a b t0 y0 h = some (ts, ys) ∧
      ts.length = nb + 1 + nf ∧ ys.length = nb + 1 + nf ∧
      ts.getD nb 0 = t0 ∧ ys.getD nb 0 = y0 ∧
      (∀ k, k < nf →
        ts.getD (nb + 1 + k) 0 = ts.getD (nb + k) 0 + h ∧
        ys.getD (nb + 1 + k) 0 =
          ys.getD (nb + k) 0 + h * f (ts.getD (nb + k) 0) (ys.getD (nb + k) 0)) ∧
      (∀ p, p < nb →
        ts.getD p 0 = ts.getD (p + 1) 0 - h ∧
        ys.getD p 0 = ys.getD (p + 1) 0 - h * f (ts.getD (p + 1) 0) (ys.getD (p + 1) 0)) ∧
      (t0 = a → nb = 0) := by
  have hh' : h ≠ 0 := ne_of_gt hh
  unfold EulerPy.euler_explicit
  rw [bidirSolve_eq_map _ _ a b t0 y0 h nb nf ⟨ha, hb⟩ hh' hnb hnf]
  set bs := fun ti yi => yi - h * f ti yi with hbs
  set fs := fun ti yi => yi + h * f ti yi with hfs
  set N := nb + 1 + nf with hN
  refine ⟨_, _, rfl, ?_, ?_, ?_, ?_, ?_, ?_, ?_⟩
  · rw [List.length_map, List.length_map, List.length_range]
  · rw [List.length_map, List.length_map, List.length_range]
  · rw [bidir_getD_fst _ _ _ _ _ _ _ _ (show nb < N by omega), trajPt_center]
  · rw [bidir_getD_snd _ _ _ _ _ _ _ _ (show nb < N by omega), trajPt_center]
  · intro k hk
    have h1 : nb + 1 + k = nb + (k + 1) := by omega
    rw [h1,
      bidir_getD_fst _ _ _ _ _ _ _ _ (show nb + (k + 1) < N by omega),
      bidir_getD_snd _ _ _ _ _ _ _ _ (show nb + (k + 1) < N by omega),
      bidir_getD_fst _ _ _ _ _ _ _ _ (show nb + k < N by omega),
      bidir_getD_snd _ _ _ _ _ _ _ _ (show nb + k < N by omega),
      trajPt_fwd bs fs h t0 y0 nb (k + 1), trajPt_fwd bs fs h t0 y0 nb k]
    have e1 : (stepFwd fs h)^[k + 1] (t0, y0) =
        stepFwd fs h ((stepFwd fs h)^[k] (t0, y0)) :=
      Function.iterate_succ_apply' (stepFwd fs h) k (t0, y0)
    rw [e1]
    exact ⟨rfl, rfl⟩
  · intro p hp
    rw [bidir_getD_fst _ _ _ _ _ _ _ _ (show p < N by omega),
      bidir_getD_snd _ _ _ _ _ _ _ _ (show p < N by omega),
      bidir_getD_fst _ _ _ _ _ _ _ _ (show p + 1 < N by omega),
      bidir_getD_snd _ _ _ _ _ _ _ _ (show p + 1 < N by omega),
      trajPt_back_succ _ _ _ _ _ _ _ hp]
    exact ⟨rfl, rfl⟩
  · intro h0
    rw [hnb, h0, sub_self, zero_div, pyRound_zero]
    rfl

/-- Witness for C2 at a concrete interior-`t0` call. -/
theorem C2_bidirectional_protocol_witness :
    (0 : ℚ) ≤ 1/2 ∧ (1/2 : ℚ) ≤ 1 ∧ (0 : ℚ) < 1/4 ∧
    ((2 : ℕ) = (pyRound (((1/2 : ℚ) - 0) / (1/4))).toNat ∧
     (2 : ℕ) = (pyRound (((1 : ℚ) - 1/2) / (1/4))).toNat) ∧
    ∃ ts ys, EulerPy.euler_explicit (fun t _ => t) 0 1 (1/2) 1 (1/4) = some (ts, ys) ∧
      ts.length = 2 + 1 + 2 ∧ ys.length = 2 + 1 + 2 ∧
      ts.getD 2 0 = 1/2 ∧ ys.getD 2 0 = 1 ∧
      (∀ k, k < 2 →
        ts.getD (2 + 1 + k) 0 = ts.getD (2 + k) 0 + 1/4 ∧
        ys.getD (2 + 1 + k) 0 = ys.getD (2 + k) 0 +
          1/4 * (fun t (_ : ℚ) => t) (ts.getD (2 + k) 0) (ys.getD (2 + k) 0)) ∧
      (∀ p, p < 2 →
        ts.getD p 0 = ts.getD (p + 1) 0 - 1/4 ∧
        ys.getD p 0 = ys.getD (p + 1) 0 -
          1/4 * (fun t (_ : ℚ) => t) (ts.getD (p + 1) 0) (ys.getD (p + 1) 0)) ∧
      ((1/2 : ℚ) = 0 → (2 : ℕ) = 0) := by
  have hnb : (2 : ℕ) = (pyRound (((1/2 : ℚ) - 0) / (1/4))).toNat := by
    with_unfolding_all decide
  have hnf : (2 : ℕ) = (pyRound (((1 : ℚ) - 1/2) / (1/4))).toNat := by
    with_unfolding_all decide
  exact ⟨by norm_num, by norm_num, by norm_num, ⟨hnb, hnf⟩,
    C2_bidirectional_protocol (fun t _ => t) 0 1 (1/2) 1 (1/4) 2 2
      (by norm_num) (by norm_num) (by norm_num) hnb hnf⟩

/-- C3: with a constant derivative `f(t, y) = c`, every one of the four
solvers returns the exact linear trajectory `y_k = y0 + c·(t_k - t0)` at
every sample (hence `y_k = y0` when `c = 0`); over `ℚ` the identity is
exact. -/
theorem C3_constant_derivative_exact (c a b t0 y0 h thr thr' : ℚ) (E E' : ℕ)
    (ha : a ≤ t0) (hb : t0 ≤ b) (hh : h ≠ 0) :
    (∃ ts ys, EulerPy.euler_explicit (fun _ _ => c) a b t0 y0 h = some (ts, ys) ∧
      ys.length = ts.length ∧
      ∀ k, k < ts.length → ys.getD k 0 = y0 + c * (ts.getD k 0 - t0)) ∧
    (∃ ts ys,
      EulerPy.euler_implicit (fun _ _ => c) a b t0 y0 h thr E = some (ts, ys) ∧
      ys.length = ts.length ∧
      ∀ k, k < ts.length → ys.getD k 0 = y0 + c * (ts.getD k 0 - t0)) ∧
    (∃ ts ys,
      EulerPy.euler_trapezium (fun _ _ => c) a b t0 y0 h thr' E' = some (ts, ys) ∧
      ys.length = ts.length ∧
      ∀ k, k < ts.length → ys.getD k 0 = y0 + c * (ts.getD k 0 - t0)) ∧
    (∃ ts ys, EulerPy.euler_improved (fun _ _ => c) a b t0 y0 h = some (ts, ys) ∧
      ys.length = ts.length ∧
      ∀ k, k < ts.length → ys.getD k 0 = y0 + c * (ts.getD k 0 - t0)) := by
  have key := bidir_const_split a b t0 y0 h c ⟨ha, hb⟩ hh
  refine ⟨?_, ?_, ?_, ?_⟩
  · exact key
  · show ∃ ts ys,
      (bidirSolve
          (fun ti yi => fixIter (fun _ => yi - h * c) thr E (yi - h * c))
          (fun ti yi => fixIter (fun _ => yi + h * c) thr E (yi + h * c))
          a b t0 y0 h).map (fun l => (l.map Prod.fst, l.map Prod.snd)) =
        some (ts, ys) ∧ _
    have hA : (fun (ti yi : ℚ) => fixIter (fun _ => yi - h * c) thr E (yi - h * c)) =
        (fun (_ yi : ℚ) => yi - h * c) := by
      funext ti yi
      exact fixIter_const (yi - h * c) thr E
    have hB : (fun (ti yi : ℚ) => fixIter (fun _ => yi + h * c) thr E (yi + h * c)) =
        (fun (_ yi : ℚ) => yi + h * c) := by
      funext ti yi
      exact fixIter_const (yi + h * c) thr E
    rw [hA, hB]
    exact key
  · show ∃ ts ys,
      (bidirSolve
          (fun ti yi => fixIter (fun _ => yi - 1/2 * h * (c + c)) thr' E' (yi - h * c))
          (fun ti yi => fixIter (fun _ => yi + 1/2 * h * (c + c)) thr' E' (yi + h * c))
          a b t0 y0 h).map (fun l => (l.map Prod.fst, l.map Prod.snd)) =
        some (ts, ys) ∧ _
    have hA : (fun (ti yi : ℚ) =>
        fixIter (fun _ => yi - 1/2 * h * (c + c)) thr' E' (yi - h * c)) =
        (fun (_ yi : ℚ) => yi - h * c) := by
      funext ti yi
      have hd : yi - 1/2 * h * (c + c) = yi - h * c := by ring
      rw [hd]
      exact fixIter_const (yi - h * c) thr' E'
    have hB : (fun (ti yi : ℚ) =>
        fixIter (fun _ => yi + 1/2 * h * (c + c)) thr' E' (yi + h * c)) =
        (fun (_ yi : ℚ) => yi + h * c) := by
      funext ti yi
      have hd : yi + 1/2 * h * (c + c) = yi + h * c := by ring
      rw [hd]
      exact fixIter_const (yi + h * c) thr' E'
    rw [hA, hB]
    exact key
  · show ∃ ts ys,
      (bidirSolve
          (fun ti yi => yi - 1/2 * h * (c + c))
          (fun ti yi => yi + 1/2 * h * (c + c))
          a b t0 y0 h).map (fun l => (l.map Prod.fst, l.map Prod.snd)) =
        some (ts, ys) ∧ _
    have hA : (fun (ti yi : ℚ) => yi - 1/2 * h * (c + c)) =
        (fun (_ yi : ℚ) => yi - h * c) := by
      funext ti yi
      ring
    have hB : (fun (ti yi : ℚ) => yi + 1/2 * h * (c + c)) =
        (fun (_ yi : ℚ) => yi + h * c) := by
      funext ti yi
      ring
    rw [hA, hB]
    exact key

/-- Witness for C3 at a concrete call with `c = 2`. -/
theorem C3_constant_derivative_exact_witness :
    (0 : ℚ) ≤ 0 ∧ (0 : ℚ) ≤ 1 ∧ (1/2 : ℚ) ≠ 0 ∧
    (∃ ts ys, EulerPy.euler_explicit (fun _ _ => 2) 0 1 0 3 (1/2) = some (ts, ys) ∧
      ys.length = ts.length ∧
      ∀ k, k < ts.length → ys.getD k 0 = 3 + 2 * (ts.getD k 0 - 0)) ∧
    (∃ ts ys,
      EulerPy.euler_implicit (fun _ _ => 2) 0 1 0 3 (1/2) (1/1000000) 100 = some (ts, ys) ∧
      ys.length = ts.length ∧
      ∀ k, k < ts.length → ys.getD k 0 = 3 + 2 * (ts.getD k 0 - 0)) := by
  have key := C3_constant_derivative_exact 2 0 1 0 3 (1/2) (1/1000000) (1/1000000) 100 50
    (le_refl 0) (by norm_num) (by norm_num)
  exact ⟨le_refl 0, by norm_num, by norm_num, key.1, key.2.1⟩

lemma zip_map_fst_snd {α β : Type} (l : List (α × β)) :
    (l.map Prod.fst).zip (l.map Prod.snd) = l := by
  rw [List.zip_map']
  conv_rhs => rw [← List.map_id l]
  apply List.map_congr_left
  intro p _
  rfl

lemma bidir_filter_split (bs fs : ℚ → ℚ → ℚ) (a b t0 y0 h : ℚ)
    (ha : a ≤ t0) (hb : t0 ≤ b) (hh : 0 < h) :
    ∃ ts ys ts' ys',
      (bidirSolve bs fs a b t0 y0 h).map
        (fun l => (l.map Prod.fst, l.map Prod.snd)) = some (ts, ys) ∧
      (bidirSolve bs fs t0 b t0 y0 h).map
        (fun l => (l.map Prod.fst, l.map Prod.snd)) = some (ts', ys') ∧
      (ts.zip ys).filter (fun q => decide (t0 ≤ q.1)) = ts'.zip ys' := by
  obtain ⟨l, l', e1, e2, hf⟩ := bidir_filter bs fs a b t0 y0 h ha hb hh
  refine ⟨l.map Prod.fst, l.map Prod.snd, l'.map Prod.fst, l'.map Prod.snd,
    ?_, ?_, ?_⟩
  · rw [e1]
    rfl
  · rw [e2]
    rfl
  · rw [zip_map_fst_snd, zip_map_fst_snd, hf]

/-- C7: for every one of the four solvers and every `t0` strictly between
`a` and `b` (step length `h > 0`), the sub-sequence of the returned
trajectory with `t ≥ t0` is exactly the trajectory of the same solver
called with the left bound replaced by `t0`. -/
theorem C7_forward_independent_of_backward (f : ℚ → ℚ → ℚ)
    (a b t0 y0 h thr thr' : ℚ) (E E' : ℕ)
    (ha : a < t0) (hb : t0 < b) (hh : 0 < h) :
    (∃ ts ys ts' ys',
      EulerPy.euler_explicit f a b t0 y0 h = some (ts, ys) ∧
      EulerPy.euler_explicit f t0 b t0 y0 h = some (ts', ys') ∧
      (ts.zip ys).filter (fun q => decide (t0 ≤ q.1)) = ts'.zip ys') ∧
    (∃ ts ys ts' ys',
      EulerPy.euler_implicit f a b t0 y0 h thr E = some (ts, ys) ∧
      EulerPy.euler_implicit f t0 b t0 y0 h thr E = some (ts', ys') ∧
      (ts.zip ys).filter (fun q => decide (t0 ≤ q.1)) = ts'.zip ys') ∧
    (∃ ts ys ts' ys',
      EulerPy.euler_trapezium f a b t0 y0 h thr' E' = some (ts, ys) ∧
      EulerPy.euler_trapezium f t0 b t0 y0 h thr' E' = some (ts', ys') ∧
      (ts.zip ys).filter (fun q => decide (t0 ≤ q.1)) = ts'.zip ys') ∧
    (∃ ts ys ts' ys',
      EulerPy.euler_improved f a b t0 y0 h = some (ts, ys) ∧
      EulerPy.euler_improved f t0 b t0 y0 h = some (ts', ys') ∧
      (ts.zip ys).filter (fun q => decide (t0 ≤ q.1)) = ts'.zip ys') :=
  ⟨bidir_filter_split _ _ a b t0 y0 h (le_of_lt ha) (le_of_lt hb) hh,
   bidir_filter_split _ _ a b t0 y0 h (le_of_lt ha) (le_of_lt hb) hh,
   bidir_filter_split _ _ a b t0 y0 h (le_of_lt ha) (le_of_lt hb) hh,
   bidir_filter_split _ _ a b t0 y0 h (le_of_lt ha) (le_of_lt hb) hh⟩

/-- Witness for C7 at a concrete interior-`t0` call. -/
theorem C7_forward_independent_of_backward_witness :
    (0 : ℚ) < 1/2 ∧ (1/2 : ℚ) < 1 ∧ (0 : ℚ) < 1/4 ∧
    (∃ ts ys ts' ys',
      EulerPy.euler_explicit (fun _ _ => 1) 0 1 (1/2) 0 (1/4) = some (ts, ys) ∧
      EulerPy.euler_explicit (fun _ _ => 1) (1/2) 1 (1/2) 0 (1/4) = some (ts', ys') ∧
      (ts.zip ys).filter (fun q => decide ((1/2 : ℚ) ≤ q.1)) = ts'.zip ys') := by
  have key := C7_forward_independent_of_backward (fun _ _ => 1) 0 1 (1/2) 0 (1/4)
    (1/1000000) (1/1000000) 100 50 (by norm_num) (by norm_num) (by norm_num)
  exact ⟨by norm_num, by norm_num, by norm_num, key.1⟩

lemma bidir_split_lengths (bs fs : ℚ → ℚ → ℚ) (a b t0 y0 h : ℚ)
    (hab : a ≤ t0 ∧ t0 ≤ b) (hh : h ≠ 0) :
    ∃ ts ys, (bidirSolve bs fs a b t0 y0 h).map
        (fun l => (l.map Prod.fst, l.map Prod.snd)) = some (ts, ys) ∧
      ts.length = (pyRound ((t0 - a) / h)).toNat + 1 +
        (pyRound ((b - t0) / h)).toNat ∧
      ys.length = ts.length := by
  rw [bidirSolve_eq_map bs fs a b t0 y0 h _ _ hab hh rfl rfl]
  refine ⟨_, _, rfl, ?_, ?_⟩
  · rw [List.length_map, List.length_map, List.length_range]
  · simp [List.length_map, List.length_range]

/-- C10: every solver call with `a ≤ t0 ≤ b`, `h > 0` terminates with a
result; each inner fixed-point loop of `euler_implicit`/`euler_trapezium`
executes at most `epochs + 1` iterations, and the outer backward and
forward loops run exactly `round((t0 - a)/h)` and `round((b - t0)/h)`
times (both counts non-negative), as witnessed by the trajectory length
`nb + 1 + nf`. -/
theorem C10_termination_and_loop_counts (f : ℚ → ℚ → ℚ)
    (a b t0 y0 h thr thr' : ℚ) (E E' : ℕ)
    (ha : a ≤ t0) (hb : t0 ≤ b) (hh : 0 < h) :
    (∀ (g : ℚ → ℚ) (s : ℚ), (fixIterC g thr E s).2 ≤ E + 1) ∧
    0 ≤ pyRound ((t0 - a) / h) ∧ 0 ≤ pyRound ((b - t0) / h) ∧
    (∃ ts ys, EulerPy.euler_implicit f a b t0 y0 h thr E = some (ts, ys) ∧
      ts.length = (pyRound ((t0 - a) / h)).toNat + 1 +
        (pyRound ((b - t0) / h)).toNat ∧
      ys.length = ts.length) ∧
    (∃ ts ys, EulerPy.euler_trapezium f a b t0 y0 h thr' E' = some (ts, ys) ∧
      ts.length = (pyRound ((t0 - a) / h)).toNat + 1 +
        (pyRound ((b - t0) / h)).toNat ∧
      ys.length = ts.length) := by
  have hh' : h ≠ 0 := ne_of_gt hh
  refine ⟨fun g s => fixIterC_count_le g thr E s, ?_, ?_, ?_, ?_⟩
  · exact pyRound_nonneg (div_nonneg (sub_nonneg.mpr ha) (le_of_lt hh))
  · exact pyRound_nonneg (div_nonneg (sub_nonneg.mpr hb) (le_of_lt hh))
  · exact bidir_split_lengths _ _ a b t0 y0 h ⟨ha, hb⟩ hh'
  · exact bidir_split_lengths _ _ a b t0 y0 h ⟨ha, hb⟩ hh'

/-- Witness for C10 at a concrete call. -/
theorem C10_termination_and_loop_counts_witness :
    (0 : ℚ) ≤ 1/2 ∧ (1/2 : ℚ) ≤ 1 ∧ (0 : ℚ) < 1/2 ∧
    (∀ (g : ℚ → ℚ) (s : ℚ), (fixIterC g (1/1000000) 100 s).2 ≤ 100 + 1) ∧
    (∃ ts ys,
      EulerPy.euler_implicit (fun _ y => y) 0 1 (1/2) 1 (1/2) (1/1000000) 100 =
        some (ts, ys) ∧
      ts.length = (pyRound (((1/2 : ℚ) - 0) / (1/2))).toNat + 1 +
        (pyRound (((1 : ℚ) - 1/2) / (1/2))).toNat ∧
      ys.length = ts.length) := by
  have key := C10_termination_and_loop_counts (fun _ y => y) 0 1 (1/2) 1 (1/2)
    (1/1000000) (1/1000000) 100 50 (by norm_num) (by norm_num) (by norm_num)
  exact ⟨by norm_num, by norm_num, by norm_num, key.1, key.2.2.2.1⟩

/-- C1 (amended): the per-step fixed-point iteration of the implicit
solvers stops at the first iteration whose `|y__ - y_| < threshold` or at
the epoch cap, whichever comes first — but the value accepted as the new
trajectory sample is the iterate `y_` held when the loop breaks (the
explicit-Euler seed if the loop breaks on its first iteration, otherwise
the `y__` of the previous iteration), not the last computed `y__`.  Stated
for a single forward step of `euler_implicit` and `euler_trapezium`,
together with the characterization of the accepted value `fixIter`. -/
theorem C1_accepted_value_of_fixed_point (f : ℚ → ℚ → ℚ) (t0 y0 h thr : ℚ)
    (E : ℕ) (hh : 0 < h) :
    (∀ (g : ℚ → ℚ) (s : ℚ), ∃ k, k ≤ E ∧ fixIter g thr E s = g^[k] s ∧
      (∀ j, j < k → ¬ |g (g^[j] s) - g^[j] s| < thr) ∧
      (k < E → |g (g^[k] s) - g^[k] s| < thr)) ∧
    EulerPy.euler_implicit f t0 (t0 + h) t0 y0 h thr E =
      some ([t0, t0 + h],
        [y0, fixIter (fun y => y0 + h * f (t0 + h) y) thr E (y0 + h * f t0 y0)]) ∧
    EulerPy.euler_trapezium f t0 (t0 + h) t0 y0 h thr E =
      some ([t0, t0 + h],
        [y0, fixIter (fun y => y0 + 1/2 * h * (f t0 y0 + f (t0 + h) y)) thr E
          (y0 + h * f t0 y0)]) := by
  have hh' : h ≠ 0 := ne_of_gt hh
  have h0 : (0 : ℕ) = (pyRound ((t0 - t0) / h)).toNat := by
    rw [sub_self, zero_div, pyRound_zero]
    rfl
  have h1 : (1 : ℕ) = (pyRound ((t0 + h - t0) / h)).toNat := by
    have hd : (t0 + h - t0) / h = 1 := by
      field_simp
    rw [hd, pyRound_one]
    rfl
  have hab : t0 ≤ t0 ∧ t0 ≤ t0 + h := ⟨le_refl t0, by linarith⟩
  refine ⟨fun g s => fixIter_iterate g thr E s, ?_, ?_⟩
  · unfold EulerPy.euler_implicit
    rw [bidirSolve_eq_map _ _ t0 (t0 + h) t0 y0 h 0 1 hab hh' h0 h1]
    rfl
  · unfold EulerPy.euler_trapezium
    rw [bidirSolve_eq_map _ _ t0 (t0 + h) t0 y0 h 0 1 hab hh' h0 h1]
    rfl

/-- Witness for the amended C1 at a concrete call. -/
theorem C1_accepted_value_of_fixed_point_witness :
    (0 : ℚ) < 1 ∧
    (∀ (g : ℚ → ℚ) (s : ℚ), ∃ k, k ≤ 100 ∧ fixIter g 10 100 s = g^[k] s ∧
      (∀ j, j < k → ¬ |g (g^[j] s) - g^[j] s| < 10) ∧
      (k < 100 → |g (g^[k] s) - g^[k] s| < 10)) ∧
    EulerPy.euler_implicit (fun _ y => y) 0 (0 + 1) 0 1 1 10 100 =
      some ([0, 0 + 1],
        [1, fixIter (fun y => 1 + 1 * (fun _ y' => y') (0 + 1) y) 10 100
          (1 + 1 * (fun _ y' => y') 0 1)]) := by
  have key := C1_accepted_value_of_fixed_point (fun _ y => y) 0 1 1 10 100
    (by norm_num)
  exact ⟨by norm_num, key.1, key.2.1⟩

/-- C1 counterexample: the claim that the accepted sample is the last
computed `y__` fails.  For `f(t, y) = y`, `t0 = 0`, `y0 = 1`, `h = 1`,
`threshold = 10`, `epochs = 100`, the single forward step of
`euler_implicit` seeds `y_ = 2`, computes `y__ = 3`, breaks because
`|3 - 2| = 1 < 10`, and appends `y_ = 2` — while the last computed `y__`
(the value `fixIterLast` extracts from the same loop) is `3 ≠ 2`. -/
theorem C1_counterexample :
    EulerPy.euler_implicit (fun _ y => y) 0 1 0 1 1 10 100 =
      some ([0, 1], [1, 2]) ∧
    fixIterLast (fun y => 1 + 1 * y) 10 100 (1 + 1 * 1) = 3 ∧
    (2 : ℚ) ≠ 3 := by
  refine ⟨?_, ?_, ?_⟩ <;> with_unfolding_all decide

lemma bidir_none_of_not_between (bs fs : ℚ → ℚ → ℚ) (a b t0 y0 h : ℚ)
    (hab : ¬ (a ≤ t0 ∧ t0 ≤ b)) : bidirSolve bs fs a b t0 y0 h = none := by
  unfold bidirSolve
  rw [if_neg hab]

lemma bidir_some_of_ne (bs fs : ℚ → ℚ → ℚ) (a b t0 y0 h : ℚ)
    (hab : a ≤ t0 ∧ t0 ≤ b) (hh : h ≠ 0) :
    bidirSolve bs fs a b t0 y0 h ≠ none := by
  unfold bidirSolve
  rw [if_pos hab, if_neg hh]
  exact Option.some_ne_none _

/-- C5 (amended): the checked preconditions fail fast — `t0` outside
`[a, b]` makes every solver raise before any computation, and a
non-positive repetition count makes `analyse_time` raise before invoking
the solver — but a non-positive step length is NOT validated: a solver
call with `h < 0` proceeds and returns a trajectory (only `h = 0` fails,
and then from the division in the step-count computation, not from a
precondition check). -/
theorem C5_precondition_checks (f : ℚ → ℚ → ℚ) (method : Method)
    (a b t0 y0 h a2 b2 t02 y02 hneg : ℚ) (thr : ℚ) (E : ℕ) (reps : ℤ)
    (hab : ¬ (a ≤ t0 ∧ t0 ≤ b)) (hreps : reps ≤ 0)
    (ha' : a2 ≤ t02) (hb' : t02 ≤ b2) (hneg' : hneg < 0) :
    EulerPy.euler_explicit f a b t0 y0 h = none ∧
    EulerPy.euler_implicit f a b t0 y0 h thr E = none ∧
    EulerPy.euler_trapezium f a b t0 y0 h thr E = none ∧
    EulerPy.euler_improved f a b t0 y0 h = none ∧
    AnalysisPy.analyse_time f method a b t0 y0 h reps = none ∧
    EulerPy.euler_explicit f a2 b2 t02 y02 hneg ≠ none := by
  refine ⟨?_, ?_, ?_, ?_, ?_, ?_⟩
  · unfold EulerPy.euler_explicit
    rw [bidir_none_of_not_between _ _ a b t0 y0 h hab]
    rfl
  · unfold EulerPy.euler_implicit
    rw [bidir_none_of_not_between _ _ a b t0 y0 h hab]
    rfl
  · unfold EulerPy.euler_trapezium
    rw [bidir_none_of_not_between _ _ a b t0 y0 h hab]
    rfl
  · unfold EulerPy.euler_improved
    rw [bidir_none_of_not_between _ _ a b t0 y0 h hab]
    rfl
  · unfold AnalysisPy.analyse_time
    rw [if_neg (by omega)]
  · unfold EulerPy.euler_explicit
    intro hcon
    exact bidir_some_of_ne _ _ a2 b2 t02 y02 hneg ⟨ha', hb'⟩ (ne_of_lt hneg')
      (Option.map_eq_none'.mp hcon)

/-- Witness for C5 at concrete inputs. -/
theorem C5_precondition_checks_witness :
    ¬ ((0 : ℚ) ≤ 2 ∧ (2 : ℚ) ≤ 1) ∧ ((0 : ℤ) ≤ 0) ∧ ((-1 : ℚ) < 0) ∧
    (EulerPy.euler_explicit (fun _ _ => 1) 0 1 2 0 1 = none ∧
     EulerPy.euler_implicit (fun _ _ => 1) 0 1 2 0 1 (1/1000000) 100 = none ∧
     EulerPy.euler_trapezium (fun _ _ => 1) 0 1 2 0 1 (1/1000000) 100 = none ∧
     EulerPy.euler_improved (fun _ _ => 1) 0 1 2 0 1 = none ∧
     AnalysisPy.analyse_time (fun _ _ => 1) EulerPy.euler_explicit 0 1 0 0 1 0 = none ∧
     EulerPy.euler_explicit (fun _ _ => 1) 0 1 0 0 (-1) ≠ none) := by
  refine ⟨by norm_num, le_refl 0, by norm_num, ?_⟩
  exact C5_precondition_checks (fun _ _ => 1) EulerPy.euler_explicit 0 1 2 0 1
    0 1 0 0 (-1) (1/1000000) 100 0 (by norm_num) (le_refl 0) (by norm_num)
    (by norm_num) (by norm_num)

/-- C5 counterexample: a solver call with the non-positive step length
`h = -1` does not fail: `euler_explicit` proceeds and returns the
one-sample trajectory `([t0], [y0])` (the negative rounded step counts
make both `range` loops empty), so a non-positive step size is not
"reported immediately as a hard failure before any computation". -/
theorem C5_counterexample :
    (-1 : ℚ) ≤ 0 ∧
    EulerPy.euler_explicit (fun _ _ => 1) 0 1 0 0 (-1) = some ([0], [0]) := by
  constructor
  · norm_num
  · with_unfolding_all decide

/-! ### The placement loop of the `analysis.py` comparison harness -/

namespace AnalysisPy

lemma pySet_in_range (l : List (Option ℚ)) (i : ℕ) (v : Option ℚ)
    (hi : i < l.length) : pySet l (i : ℤ) v = some (l.set i v) := by
  unfold pySet
  rw [if_pos ⟨Int.ofNat_nonneg i, by exact_mod_cast hi⟩]
  rw [Int.toNat_natCast]

/-- With commensurate grids the placement index is exactly `j * r`. -/
lemma round_index (space : ℚ) (r j : ℕ) (hs : space ≠ 0) :
    pyRound ((j : ℚ) * ((r : ℚ) * space) / space) = ((j * r : ℕ) : ℤ) := by
  have he : (j : ℚ) * ((r : ℚ) * space) / space = ((j * r : ℕ) : ℚ) := by
    push_cast
    field_simp
    ring
  rw [he, pyRound_natCast]

/-- Characterization of the placement loop on commensurate grids: it
writes `y[k]` at cell `(j + k)·r` and touches nothing else. -/
lemma fillCol_spec (space : ℚ) (r : ℕ) (hs : space ≠ 0) (hr : 1 ≤ r) :
    ∀ (ys : List ℚ) (j : ℕ) (l : List (Option ℚ)),
      (∀ k, k < ys.length → (j + k) * r < l.length) →
      ∃ l', fillCol space ((r : ℚ) * space) ys j l = some l' ∧
        l'.length = l.length ∧
        (∀ m k, k < ys.length → m = (j + k) * r →
          l'[m]? = some (some (ys.getD k 0))) ∧
        (∀ m, (∀ k, k < ys.length → m ≠ (j + k) * r) → l'[m]? = l[m]?) := by
  intro ys
  induction ys with
  | nil =>
    intro j l _
    exact ⟨l, rfl, rfl, fun m k hk _ => absurd hk (Nat.not_lt_zero k),
      fun m _ => rfl⟩
  | cons y ys ih =>
    intro j l hrange
    have hj : j * r < l.length := by
      have := hrange 0 (by simp)
      simpa using this
    have hnext : ∀ k, k < ys.length → ((j + 1) + k) * r < (l.set (j * r) (some y)).length := by
      intro k hk
      rw [List.length_set]
      have := hrange (k + 1) (by simp; omega)
      have he : j + (k + 1) = (j + 1) + k := by omega
      rw [he] at this
      exact this
    obtain ⟨l', he', hlen, hin, hout⟩ := ih (j + 1) (l.set (j * r) (some y)) hnext
    refine ⟨l', ?_, ?_, ?_, ?_⟩
    · rw [fillCol, round_index space r j hs, pySet_in_range l (j * r) (some y) hj]
      exact he'
    · rw [hlen, List.length_set]
    · intro m k hk hm
      cases k with
      | zero =>
        simp only [Nat.add_zero] at hm
        have hm0 : m = j * r := hm
        have huntouched : ∀ k', k' < ys.length → m ≠ ((j + 1) + k') * r := by
          intro k' hk' hcon
          have h1 : (j + 1) * r ≤ ((j + 1) + k') * r :=
            Nat.mul_le_mul_right r (by omega)
          have h2 : (j + 1) * r = j * r + r := by ring
          omega
        rw [hout m huntouched, hm0, List.getElem?_set, if_pos rfl, if_pos hj]
        rfl
      | succ k =>
        have he2 : m = ((j + 1) + k) * r := by
          rw [hm]
          congr 1
          omega
        have := hin m k (by simpa using hk) he2
        rw [this]
        rfl
    · intro m hm
      have huntouched : ∀ k', k' < ys.length → m ≠ ((j + 1) + k') * r := by
        intro k' hk' hcon
        have := hm (k' + 1) (by simp; omega)
        have he2 : (j + (k' + 1)) = (j + 1) + k' := by omega
        rw [he2] at this
        exact this hcon
      rw [hout m huntouched, List.getElem?_set, if_neg]
      have := hm 0 (by simp)
      simp only [Nat.add_zero] at this
      omega

end AnalysisPy

namespace AnalysisPy

/-- Expected shape of a commensurate column: `y[m/r]` at the cells that
are multiples of `r`, `NaN` elsewhere. -/
def spreadCol (r tlen : ℕ) (ys : List ℚ) : List (Option ℚ) :=
  (List.range tlen).map
    (fun m => if m % r = 0 ∧ m / r < ys.length then some (ys.getD (m / r) 0) else none)

lemma fillCol_eq_spread (space : ℚ) (r tlen : ℕ) (hs : space ≠ 0) (hr : 1 ≤ r)
    (ys : List ℚ) (hran : ∀ k, k < ys.length → k * r < tlen) :
    fillCol space ((r : ℚ) * space) ys 0 (List.replicate tlen none) =
      some (spreadCol r tlen ys) := by
  have hran' : ∀ k, k < ys.length → (0 + k) * r < (List.replicate tlen (none : Option ℚ)).length := by
    intro k hk
    rw [List.length_replicate, Nat.zero_add]
    exact hran k hk
  obtain ⟨l', he, hlen, hin, hout⟩ := fillCol_spec space r hs hr ys 0 _ hran'
  rw [he]
  congr 1
  apply List.ext_getElem?
  intro m
  by_cases hex : ∃ k, k < ys.length ∧ m = k * r
  · obtain ⟨k, hk, rfl⟩ := hex
    rw [hin (k * r) k hk (by rw [Nat.zero_add])]
    unfold spreadCol
    rw [List.getElem?_map, List.getElem?_range (hran k hk)]
    have hc : k * r % r = 0 ∧ k * r / r < ys.length := by
      refine ⟨Nat.mul_mod_left k r, ?_⟩
      rw [Nat.mul_div_cancel k (by omega)]
      exact hk
    rw [Option.map_some']
    rw [if_pos hc, Nat.mul_div_cancel k (by omega)]
  · have hnone : ∀ k, k < ys.length → m ≠ (0 + k) * r := by
      intro k hk hcon
      rw [Nat.zero_add] at hcon
      exact hex ⟨k, hk, hcon⟩
    rw [hout m hnone, List.getElem?_replicate]
    unfold spreadCol
    rw [List.getElem?_map]
    by_cases hm : m < tlen
    · rw [if_pos hm, List.getElem?_range hm, Option.map_some']
      congr 1
      rw [if_neg]
      intro hcon
      apply hex
      refine ⟨m / r, hcon.2, ?_⟩
      have := Nat.div_mul_cancel (Nat.dvd_of_mod_eq_zero hcon.1)
      omega
    · rw [if_neg hm, List.getElem?_eq_none (by rw [List.length_range]; omega),
        Option.map_none']

/-- Reading the non-`NaN` cells of a commensurate column in order gives
back exactly the solver's `y` values. -/
lemma filterMap_grid (r : ℕ) (hr : 1 ≤ r) :
    ∀ (ys : List ℚ) (tlen : ℕ), (∀ k, k < ys.length → k * r < tlen) →
      (List.range tlen).filterMap
        (fun m => if m % r = 0 ∧ m / r < ys.length then some (ys.getD (m / r) 0)
          else none) = ys := by
  intro ys
  induction ys with
  | nil =>
    intro tlen _
    rw [List.filterMap_eq_nil]
    intro m _
    rw [if_neg]
    intro hcon
    exact absurd hcon.2 (Nat.not_lt_zero _)
  | cons y ys ih =>
    intro tlen hcond
    have ht1 : 0 < tlen := by
      have := hcond 0 (by simp)
      omega
    by_cases hys : ys = []
    · subst hys
      obtain ⟨t, rfl⟩ : ∃ t, tlen = t + 1 := ⟨tlen - 1, by omega⟩
      rw [List.range_succ_eq_map, List.filterMap_cons_some
        (by rw [if_pos ⟨Nat.zero_mod r, by rw [Nat.zero_div]; simp⟩])]
      congr 1
      · rw [Nat.zero_div]
        rfl
      rw [List.filterMap_map, List.filterMap_eq_nil]
      intro m _
      show (if (m + 1) % r = 0 ∧ (m + 1) / r < _ then _ else none) = none
      rw [if_neg]
      intro hcon
      have hd : r ∣ (m + 1) := Nat.dvd_of_mod_eq_zero hcon.1
      have hge : r ≤ m + 1 := Nat.le_of_dvd (by omega) hd
      have : 1 ≤ (m + 1) / r := (Nat.one_le_div_iff (by omega)).mpr hge
      have hlt := hcon.2
      simp only [List.length_cons, List.length_nil] at hlt
      omega
    · have hlen1 : 1 ≤ ys.length := by
        cases ys with
        | nil => exact absurd rfl hys
        | cons a l => simp
      have htr : r < tlen := by
        have := hcond 1 (by simp; omega)
        omega
      have hsplit : tlen = r + (tlen - r) := by omega
      rw [hsplit, List.range_add, List.filterMap_append]
      have hhead : (List.range r).filterMap
          (fun m => if m % r = 0 ∧ m / r < (y :: ys).length
            then some ((y :: ys).getD (m / r) 0) else none) = [y] := by
        obtain ⟨t, hts⟩ : ∃ t, r = t + 1 := ⟨r - 1, by omega⟩
        rw [hts, List.range_succ_eq_map, List.filterMap_cons_some
          (by rw [if_pos ⟨Nat.zero_mod _, by rw [Nat.zero_div]; simp⟩])]
        congr 1
        · rw [Nat.zero_div]
          rfl
        rw [List.filterMap_map, List.filterMap_eq_nil]
        intro m hm
        rw [List.mem_range] at hm
        show (if (m + 1) % (t + 1) = 0 ∧ _ then _ else none) = none
        rw [if_neg]
        intro hcon
        have hd : (t + 1) ∣ (m + 1) := Nat.dvd_of_mod_eq_zero hcon.1
        have hge : t + 1 ≤ m + 1 := Nat.le_of_dvd (by omega) hd
        omega
      rw [hhead]
      have htail : (List.map (fun x => r + x) (List.range (tlen - r))).filterMap
          (fun m => if m % r = 0 ∧ m / r < (y :: ys).length
            then some ((y :: ys).getD (m / r) 0) else none) =
          (List.range (tlen - r)).filterMap
            (fun m => if m % r = 0 ∧ m / r < ys.length
              then some (ys.getD (m / r) 0) else none) := by
        rw [List.filterMap_map]
        congr 1
        funext m
        show (if (r + m) % r = 0 ∧ (r + m) / r < _ then
          some ((y :: ys).getD ((r + m) / r) 0) else none) = _
        have h1 : (r + m) % r = m % r := Nat.add_mod_left r m
        have h2 : (r + m) / r = m / r + 1 := by
          rw [Nat.add_comm]
          exact Nat.add_div_right m (by omega)
        rw [h1, h2]
        by_cases hc : m % r = 0 ∧ m / r < ys.length
        · rw [if_pos ⟨hc.1, by simp; omega⟩, if_pos hc]
          rfl
        · rw [if_neg, if_neg hc]
          intro hcon
          refine hc ⟨hcon.1, ?_⟩
          have := hcon.2
          simp only [List.length_cons] at this
          omega
      rw [htail, ih (tlen - r) (by
        intro k hk
        have h3 : (k + 1) * r < tlen := hcond (k + 1) (by simp; omega)
        have h4 : (k + 1) * r = k * r + r := by ring
        omega)]
      rfl

end AnalysisPy

namespace AnalysisPy

lemma fillCol_succeeds (space hi : ℚ) :
    ∀ (ys : List ℚ) (j : ℕ) (l : List (Option ℚ)),
      (∀ k, k < ys.length →
        0 ≤ pyRound (((j + k : ℕ) : ℚ) * hi / space) ∧
        pyRound (((j + k : ℕ) : ℚ) * hi / space) < (l.length : ℤ)) →
      ∃ l', fillCol space hi ys j l = some l' ∧ l'.length = l.length := by
  intro ys
  induction ys with
  | nil =>
    intro j l _
    exact ⟨l, rfl, rfl⟩
  | cons y ys ih =>
    intro j l hcond
    have h0 := hcond 0 (by simp)
    rw [Nat.add_zero] at h0
    have hset : pySet l (pyRound ((j : ℚ) * hi / space)) (some y) =
        some (l.set (pyRound ((j : ℚ) * hi / space)).toNat (some y)) := by
      unfold pySet
      rw [if_pos ⟨h0.1, h0.2⟩]
    obtain ⟨l', he, hlen⟩ := ih (j + 1)
      (l.set (pyRound ((j : ℚ) * hi / space)).toNat (some y)) (by
        intro k hk
        have hc := hcond (k + 1) (by simp; omega)
        rw [List.length_set]
        have he2 : j + (k + 1) = (j + 1) + k := by omega
        rw [he2] at hc
        exact hc)
    refine ⟨l', ?_, by rw [hlen, List.length_set]⟩
    simp only [fillCol, hset, Option.some_bind]
    exact he

lemma buildCols_succeeds (f : ℚ → ℚ → ℚ) (method : Method)
    (a b t0 y0 space : ℚ) (tlen : ℕ) :
    ∀ hs : List ℚ,
      (∀ hi ∈ hs, ∃ ts ys, method f a b t0 y0 hi = some (ts, ys) ∧
        ∀ j, j < ys.length → 0 ≤ pyRound ((j : ℚ) * hi / space) ∧
          pyRound ((j : ℚ) * hi / space) < (tlen : ℤ)) →
      ∃ cols, buildCols f method a b t0 y0 space tlen hs = some cols := by
  intro hs
  induction hs with
  | nil =>
    intro _
    exact ⟨[], rfl⟩
  | cons hi rest ih =>
    intro hcond
    obtain ⟨ts, ys, hm, hidx⟩ := hcond hi (by simp)
    obtain ⟨col, hc, _⟩ := fillCol_succeeds space hi ys 0
      (List.replicate tlen none) (by
        intro k hk
        have := hidx k hk
        rw [List.length_replicate]
        simpa using this)
    obtain ⟨cols, hcols⟩ := ih (fun hi' hmem => hcond hi' (by simp [hmem]))
    refine ⟨col :: cols, ?_⟩
    simp only [buildCols, hm, Option.some_bind, hc, hcols, Option.map_some']

/-- Structure of `analyse_step_len` for a non-empty step-length list. -/
lemma analyse_step_len_last_eq (f : ℚ → ℚ → ℚ) (method : Method)
    (a b t0 y0 : ℚ) (hs : List ℚ) (hne : hs ≠ []) :
    analyse_step_len f method a b t0 y0 hs =
      (linspaceZ a b (pyRound ((b - a) / hs.getLastD 0) + 1)).bind fun ts =>
      (buildCols f method a b t0 y0 (hs.getLastD 0) ts.length hs).map
        fun cols => (ts, cols) := by
  unfold analyse_step_len
  rw [List.isEmpty_eq_false.mpr hne]
  rfl

end AnalysisPy

/-- C6 (amended): `analyse_step_len` does not validate commensurability of
the step lengths with the reference resolution; whenever every solver call
succeeds and every rounded placement index `round(j·h_i/space)` lies
within the shared axis, the harness returns a table — also when the ratios
are not integers (in which case values are silently misplaced).  The only
failure mode of the placement loop is an out-of-range index. -/
theorem C6_no_commensurability_check (f : ℚ → ℚ → ℚ) (method : Method)
    (a b t0 y0 : ℚ) (hs : List ℚ) (space : ℚ)
    (hne : hs ≠ []) (hspace : space = hs.getLastD 0)
    (hn : 0 ≤ pyRound ((b - a) / space))
    (hcalls : ∀ hi ∈ hs, ∃ ts ys, method f a b t0 y0 hi = some (ts, ys) ∧
      ∀ j, j < ys.length → 0 ≤ pyRound ((j : ℚ) * hi / space) ∧
        pyRound ((j : ℚ) * hi / space) < pyRound ((b - a) / space) + 1) :
    ∃ out, AnalysisPy.analyse_step_len f method a b t0 y0 hs = some out := by
  rw [AnalysisPy.analyse_step_len_last_eq f method a b t0 y0 hs hne, ← hspace]
  unfold linspaceZ
  rw [if_neg (by omega)]
  have hlen : (linspace a b (pyRound ((b - a) / space) + 1).toNat).length =
      (pyRound ((b - a) / space) + 1).toNat := linspace_length a b _
  obtain ⟨cols, hcols⟩ := AnalysisPy.buildCols_succeeds f method a b t0 y0 space
    (pyRound ((b - a) / space) + 1).toNat hs (by
      intro hi hmem
      obtain ⟨ts, ys, hm, hidx⟩ := hcalls hi hmem
      refine ⟨ts, ys, hm, ?_⟩
      intro j hj
      have := hidx j hj
      have hcast : (((pyRound ((b - a) / space) + 1).toNat : ℕ) : ℤ) =
          pyRound ((b - a) / space) + 1 := Int.toNat_of_nonneg (by omega)
      rw [hcast]
      exact this)
  rw [Option.some_bind, hlen, hcols, Option.map_some']
  exact ⟨_, rfl⟩

/-- Witness for the amended C6 at the incommensurate input
`hs = [1/3, 1/4]` (ratio `4/3`). -/
theorem C6_no_commensurability_check_witness :
    ([(1/3 : ℚ), 1/4] ≠ []) ∧ ((1/4 : ℚ) = [(1/3 : ℚ), 1/4].getLastD 0) ∧
    (((1/3 : ℚ) / (1/4)).den ≠ 1) ∧
    ∃ out, AnalysisPy.analyse_step_len (fun _ _ => 0) EulerPy.euler_explicit
      0 1 0 0 [1/3, 1/4] = some out := by
  refine ⟨by simp, by with_unfolding_all decide, by with_unfolding_all decide, ?_⟩
  apply C6_no_commensurability_check (fun _ _ => 0) EulerPy.euler_explicit
    0 1 0 0 [1/3, 1/4] (1/4) (by simp) (by with_unfolding_all decide)
    (by with_unfolding_all decide)
  intro hi hmem
  rw [List.mem_cons, List.mem_cons] at hmem
  rcases hmem with h1 | h2 | h3
  · subst h1
    refine ⟨[0, 1/3, 2/3, 1], [0, 0, 0, 0], by with_unfolding_all decide, ?_⟩
    intro j hj
    simp only [List.length_cons, List.length_nil] at hj
    interval_cases j <;> constructor <;> with_unfolding_all decide
  · subst h2
    refine ⟨[0, 1/4, 1/2, 3/4, 1], [0, 0, 0, 0, 0], by with_unfolding_all decide, ?_⟩
    intro j hj
    simp only [List.length_cons, List.length_nil] at hj
    interval_cases j <;> constructor <;> with_unfolding_all decide
  · exact absurd h3 (List.not_mem_nil hi)

/-- C6 counterexample: with the incommensurate step-length list
`[1/3, 1/4]` (ratio `(1/3)/(1/4) = 4/3`, not an integer) the harness does
not fail: it returns a table, silently placing each `y` value at the
nearest rounded index (cell 2 of the `1/3` column stays `NaN`). -/
theorem C6_counterexample :
    (((1/3 : ℚ) / (1/4)).den ≠ 1) ∧
    AnalysisPy.analyse_step_len (fun _ _ => 0) EulerPy.euler_explicit
        0 1 0 0 [1/3, 1/4] =
      some ([0, 1/4, 1/2, 3/4, 1],
        [[some 0, some 0, none, some 0, some 0],
         [some 0, some 0, some 0, some 0, some 0]]) := by
  constructor <;> with_unfolding_all decide

namespace AnalysisPy

lemma buildCols_forall₂ (f : ℚ → ℚ → ℚ) (method : Method)
    (a b t0 y0 space : ℚ) (n : ℕ) (hpos : 0 < space) :
    ∀ hs : List ℚ,
      (∀ hi ∈ hs, ∃ (r : ℕ) (ts ys : List ℚ), 1 ≤ r ∧ hi = (r : ℚ) * space ∧
        method f a b t0 y0 hi = some (ts, ys) ∧ ts.length = ys.length ∧
        (∀ k, k < ts.length → ts.getD k 0 = a + (k : ℚ) * hi) ∧
        (ys.length - 1) * r ≤ n) →
      ∃ cols, buildCols f method a b t0 y0 space (n + 1) hs = some cols ∧
        List.Forall₂ (fun hi col => ∃ (r : ℕ) (ts ys : List ℚ), 1 ≤ r ∧
          hi = (r : ℚ) * space ∧ method f a b t0 y0 hi = some (ts, ys) ∧
          ts.length = ys.length ∧
          (∀ k, k < ts.length → ts.getD k 0 = a + (k : ℚ) * hi) ∧
          (ys.length - 1) * r ≤ n ∧
          col.filterMap id = ys) hs cols := by
  intro hs
  induction hs with
  | nil =>
    intro _
    exact ⟨[], rfl, List.Forall₂.nil⟩
  | cons hi rest ih =>
    intro hcond
    obtain ⟨r, ts, ys, hr, hhi, hm, hlen, hts, hbound⟩ := hcond hi (by simp)
    have hran : ∀ k, k < ys.length → k * r < n + 1 := by
      intro k hk
      have h1 : k * r ≤ (ys.length - 1) * r := Nat.mul_le_mul_right r (by omega)
      omega
    have hfill := fillCol_eq_spread space r (n + 1) (ne_of_gt hpos) hr ys hran
    have hfm : (spreadCol r (n + 1) ys).filterMap id = ys := by
      unfold spreadCol
      rw [List.filterMap_map, Function.id_comp]
      exact filterMap_grid r hr ys (n + 1) hran
    obtain ⟨cols, hcols, hfa⟩ := ih (fun hi' hmem => hcond hi' (by simp [hmem]))
    refine ⟨spreadCol r (n + 1) ys :: cols, ?_, ?_⟩
    · simp only [buildCols, hm, Option.some_bind]
      rw [hhi, hfill]
      simp only [Option.some_bind, hcols, Option.map_some']
    · exact List.forall₂_cons.mpr
        ⟨⟨r, ts, ys, hr, hhi, hm, hlen, hts, hbound, hfm⟩, hfa⟩

end AnalysisPy

/-- C4 (amended): when every step length `h_i` is a positive integer
multiple `r_i` of the reference resolution `space = h[-1]`, the span is an
exact multiple `b - a = n·space`, and the solver's trajectory for `h_i` is
the grid-aligned `t_j = a + j·h_i` with `(len - 1)·r_i ≤ n`, the
`analysis.py` harness returns the shared axis `a + m·space` and columns
whose non-missing entries, read in order, are exactly the solver's `y`
values, each placed at the shared-axis cell whose time coordinate equals
its own time coordinate.  (Without these commensurability and alignment
hypotheses the property fails, see the counterexample.) -/
theorem C4_aligned_columns_roundtrip (f : ℚ → ℚ → ℚ) (method : Method)
    (a b t0 y0 space : ℚ) (hs : List ℚ) (n : ℕ)
    (hne : hs ≠ []) (hspace : space = hs.getLastD 0) (hpos : 0 < space)
    (hspan : b - a = (n : ℚ) * space)
    (hcalls : ∀ hi ∈ hs, ∃ (r : ℕ) (ts ys : List ℚ), 1 ≤ r ∧
      hi = (r : ℚ) * space ∧
      method f a b t0 y0 hi = some (ts, ys) ∧ ts.length = ys.length ∧
      (∀ k, k < ts.length → ts.getD k 0 = a + (k : ℚ) * hi) ∧
      (ys.length - 1) * r ≤ n) :
    ∃ cols, AnalysisPy.analyse_step_len f method a b t0 y0 hs =
        some ((List.range (n + 1)).map (fun m : ℕ => a + (m : ℚ) * space), cols) ∧
      List.Forall₂ (fun hi col => ∃ (r : ℕ) (ts ys : List ℚ), 1 ≤ r ∧
        hi = (r : ℚ) * space ∧ method f a b t0 y0 hi = some (ts, ys) ∧
        col.filterMap id = ys ∧
        ∀ k, k < ys.length →
          ((List.range (n + 1)).map (fun m : ℕ => a + (m : ℚ) * space)).getD
            (k * r) 0 = ts.getD k 0) hs cols := by
  rw [AnalysisPy.analyse_step_len_last_eq f method a b t0 y0 hs hne, ← hspace]
  have hdiv : (b - a) / space = (n : ℚ) := by
    rw [hspan]
    field_simp
  rw [hdiv, pyRound_natCast]
  unfold linspaceZ
  rw [if_neg (by omega)]
  have htoNat : ((n : ℤ) + 1).toNat = n + 1 := by omega
  rw [htoNat, linspace_eq_grid a b space n hspan, Option.some_bind]
  have hlen : ((List.range (n + 1)).map (fun m : ℕ => a + (m : ℚ) * space)).length =
      n + 1 := by
    rw [List.length_map, List.length_range]
  rw [hlen]
  obtain ⟨cols, hcols, hfa⟩ :=
    AnalysisPy.buildCols_forall₂ f method a b t0 y0 space n hpos hs hcalls
  refine ⟨cols, ?_, ?_⟩
  · rw [hcols, Option.map_some']
  · refine hfa.imp ?_
    intro hi col ⟨r, ts, ys, hr, hhi, hm, hlen2, hts, hbound, hfm⟩
    refine ⟨r, ts, ys, hr, hhi, hm, hfm, ?_⟩
    intro k hk
    have hkr : k * r < n + 1 := by
      have h1 : k * r ≤ (ys.length - 1) * r := Nat.mul_le_mul_right r (by omega)
      omega
    rw [getD_map_range _ _ _ _ hkr, hts k (by omega)]
    rw [hhi]
    push_cast
    ring

/-- Witness for the amended C4 on the commensurate list `[1/2, 1/4]`. -/
theorem C4_aligned_columns_roundtrip_witness :
    ([(1/2 : ℚ), 1/4] ≠ []) ∧ ((1/4 : ℚ) = [(1/2 : ℚ), 1/4].getLastD 0) ∧
    ((0 : ℚ) < 1/4) ∧ ((1 : ℚ) - 0 = ((4 : ℕ) : ℚ) * (1/4)) ∧
    ∃ cols, AnalysisPy.analyse_step_len (fun _ _ => 1) EulerPy.euler_explicit
        0 1 0 0 [1/2, 1/4] =
        some ((List.range (4 + 1)).map (fun m : ℕ => 0 + (m : ℚ) * (1/4)), cols) ∧
      List.Forall₂ (fun hi col => ∃ (r : ℕ) (ts ys : List ℚ), 1 ≤ r ∧
        hi = (r : ℚ) * (1/4) ∧
        EulerPy.euler_explicit (fun _ _ => 1) 0 1 0 0 hi = some (ts, ys) ∧
        col.filterMap id = ys ∧
        ∀ k, k < ys.length →
          ((List.range (4 + 1)).map (fun m : ℕ => 0 + (m : ℚ) * (1/4))).getD
            (k * r) 0 = ts.getD k 0) [(1/2 : ℚ), 1/4] cols := by
  refine ⟨by simp, by with_unfolding_all decide, by norm_num,
    by with_unfolding_all decide, ?_⟩
  apply C4_aligned_columns_roundtrip (fun _ _ => 1) EulerPy.euler_explicit
    0 1 0 0 (1/4) [1/2, 1/4] 4 (by simp) (by with_unfolding_all decide)
    (by norm_num) (by with_unfolding_all decide)
  intro hi hmem
  rw [List.mem_cons, List.mem_cons] at hmem
  rcases hmem with h1 | h2 | h3
  · subst h1
    refine ⟨2, [0, 1/2, 1], [0, 1/2, 1], by omega, by with_unfolding_all decide,
      by with_unfolding_all decide, by with_unfolding_all decide, ?_,
      by with_unfolding_all decide⟩
    intro k hk
    simp only [List.length_cons, List.length_nil] at hk
    interval_cases k <;> with_unfolding_all decide
  · subst h2
    refine ⟨1, [0, 1/4, 1/2, 3/4, 1], [0, 1/4, 1/2, 3/4, 1], by omega,
      by with_unfolding_all decide, by with_unfolding_all decide,
      by with_unfolding_all decide, ?_, by with_unfolding_all decide⟩
    intro k hk
    simp only [List.length_cons, List.length_nil] at hk
    interval_cases k <;> with_unfolding_all decide
  · exact absurd h3 (List.not_mem_nil hi)

/-- C4 counterexample: with the step-length list `[1/4, 1/2]` the
reference resolution is `space = 1/2` and the `1/4` column is NOT a
faithful reproduction of the `1/4` trajectory: rounding collisions
(`round(j/2)`) overwrite cells, so the column's non-missing entries read
`[1/4, 1/2, 1]` while the solver's `y` values are
`[0, 1/4, 1/2, 3/4, 1]`. -/
theorem C4_counterexample :
    AnalysisPy.analyse_step_len (fun _ _ => 1) EulerPy.euler_explicit
        0 1 0 0 [1/4, 1/2] =
      some ([0, 1/2, 1],
        [[some (1/4), some (1/2), some 1], [some 0, some (1/2), some 1]]) ∧
    EulerPy.euler_explicit (fun _ _ => 1) 0 1 0 0 (1/4) =
      some ([0, 1/4, 1/2, 3/4, 1], [0, 1/4, 1/2, 3/4, 1]) ∧
    [some ((1/4 : ℚ)), some (1/2), some 1].filterMap id ≠
      [0, 1/4, 1/2, 3/4, 1] := by
  refine ⟨?_, ?_, ?_⟩ <;> with_unfolding_all decide

namespace EulerPy

/-- Structure of the `euler.py` harness for a non-empty step-length
list. -/
lemma analyse_step_len_head_eq (f : ℚ → ℚ → ℚ) (method : Method)
    (a b t0 y0 : ℚ) (hs : List ℚ) (hne : hs ≠ []) :
    analyse_step_len f method a b t0 y0 hs =
      (linspaceZ a b (pyRound ((b - a) / hs.headD 0) + 1)).bind fun ts =>
      (buildCols f method a b t0 y0 (hs.headD 0) ts.length hs).map
        fun cols => (ts, cols) := by
  unfold analyse_step_len
  rw [List.isEmpty_eq_false.mpr hne]
  rfl

end EulerPy

/-- C9 (amended): the `analysis.py` variant of `analyse_step_len` chooses
the LAST supplied step length (`h[-1]`, the finest only when the list is
supplied coarsest-to-finest, as the default is) as the reference grid
resolution, while the `euler.py` variant chooses the first (`h[0]`); both
build the shared `t` axis as `linspace(a, b, round((b - a)/space) + 1)`
at the chosen resolution. -/
theorem C9_reference_resolution_choice :
    (∀ (f : ℚ → ℚ → ℚ) (method : Method) (a b t0 y0 : ℚ) (hs : List ℚ)
      (ts : List ℚ) (cols : List (List (Option ℚ))),
      hs ≠ [] →
      AnalysisPy.analyse_step_len f method a b t0 y0 hs = some (ts, cols) →
      ∃ num : ℤ, num = pyRound ((b - a) / hs.getLastD 0) + 1 ∧ 0 ≤ num ∧
        ts = linspace a b num.toNat) ∧
    (∀ (f : ℚ → ℚ → ℚ) (method : Method) (a b t0 y0 : ℚ) (hs : List ℚ)
      (ts : List ℚ) (cols : List (List ℚ)),
      hs ≠ [] →
      EulerPy.analyse_step_len f method a b t0 y0 hs = some (ts, cols) →
      ∃ num : ℤ, num = pyRound ((b - a) / hs.headD 0) + 1 ∧ 0 ≤ num ∧
        ts = linspace a b num.toNat) := by
  constructor
  · intro f method a b t0 y0 hs ts cols hne heq
    rw [AnalysisPy.analyse_step_len_last_eq f method a b t0 y0 hs hne] at heq
    obtain ⟨ts0, hts0, hrest⟩ := Option.bind_eq_some.mp heq
    unfold linspaceZ at hts0
    by_cases hneg : pyRound ((b - a) / hs.getLastD 0) + 1 < 0
    · rw [if_pos hneg] at hts0
      exact absurd hts0 (by simp)
    · rw [if_neg hneg] at hts0
      obtain ⟨cols0, _, heq2⟩ := Option.map_eq_some'.mp hrest
      have hts : ts = ts0 := by
        have := congrArg Prod.fst heq2
        exact this.symm
      refine ⟨pyRound ((b - a) / hs.getLastD 0) + 1, rfl, by omega, ?_⟩
      rw [hts, ← Option.some.inj hts0]
  · intro f method a b t0 y0 hs ts cols hne heq
    rw [EulerPy.analyse_step_len_head_eq f method a b t0 y0 hs hne] at heq
    obtain ⟨ts0, hts0, hrest⟩ := Option.bind_eq_some.mp heq
    unfold linspaceZ at hts0
    by_cases hneg : pyRound ((b - a) / hs.headD 0) + 1 < 0
    · rw [if_pos hneg] at hts0
      exact absurd hts0 (by simp)
    · rw [if_neg hneg] at hts0
      obtain ⟨cols0, _, heq2⟩ := Option.map_eq_some'.mp hrest
      have hts : ts = ts0 := by
        have := congrArg Prod.fst heq2
        exact this.symm
      refine ⟨pyRound ((b - a) / hs.headD 0) + 1, rfl, by omega, ?_⟩
      rw [hts, ← Option.some.inj hts0]

/-- Witness for the amended C9 on the list `[1/2]` for both harness
variants. -/
theorem C9_reference_resolution_choice_witness :
    ([(1/2 : ℚ)] ≠ []) ∧
    (∃ num : ℤ, num = pyRound (((1 : ℚ) - 0) / [(1/2 : ℚ)].getLastD 0) + 1 ∧
      0 ≤ num ∧ ([0, 1/2, 1] : List ℚ) = linspace 0 1 num.toNat) ∧
    (∃ num : ℤ, num = pyRound (((1 : ℚ) - 0) / [(1/2 : ℚ)].headD 0) + 1 ∧
      0 ≤ num ∧ ([0, 1/2, 1] : List ℚ) = linspace 0 1 num.toNat) := by
  have h1 : AnalysisPy.analyse_step_len (fun _ _ => 0) EulerPy.euler_explicit
      0 1 0 0 [1/2] = some ([0, 1/2, 1], [[some 0, some 0, some 0]]) := by
    with_unfolding_all decide
  have h2 : EulerPy.analyse_step_len (fun _ _ => 0) EulerPy.euler_explicit
      0 1 0 0 [1/2] = some ([0, 1/2, 1], [[0, 0, 0]]) := by
    with_unfolding_all decide
  exact ⟨by simp,
    C9_reference_resolution_choice.1 (fun _ _ => 0) EulerPy.euler_explicit
      0 1 0 0 [1/2] [0, 1/2, 1] [[some 0, some 0, some 0]] (by simp) h1,
    C9_reference_resolution_choice.2 (fun _ _ => 0) EulerPy.euler_explicit
      0 1 0 0 [1/2] [0, 1/2, 1] [[0, 0, 0]] (by simp) h2⟩

/-- C9 counterexample: with `hs = [1/4, 1/2]` the finest supplied step
length is `1/4`, but the `analysis.py` harness builds its axis from the
LAST entry `1/2`: the returned axis `[0, 1/2, 1]` differs from the grid
`linspace(0, 1, round(1/(1/4)) + 1)` the "finest" reading predicts. -/
theorem C9_counterexample :
    AnalysisPy.analyse_step_len (fun _ _ => 0) EulerPy.euler_explicit
        0 1 0 0 [1/4, 1/2] =
      some ([0, 1/2, 1], [[some 0, some 0, some 0], [some 0, some 0, some 0]]) ∧
    (∀ q ∈ [(1/4 : ℚ), 1/2], 1/4 ≤ q) ∧
    ([0, 1/2, 1] : List ℚ) ≠
      linspace 0 1 (pyRound (((1 : ℚ) - 0) / (1/4)) + 1).toNat := by
  refine ⟨?_, ?_, ?_⟩ <;> with_unfolding_all decide
